import Mathlib

/-!
Verification of the response-cache and request-coalescing layer of the
simple-library-app repository.

The definitions below are a shallow embedding of:
  * src/cache_manager.py — class CacheManager (two-tier cache: Redis remote
    tier plus bounded in-process memory tier), and the cached(...) decorator;
  * src/api.py — _compute_etag_from_dict, _normalize_enhanced_payload,
    _ensure_list_of_str, and the single-flight coalescer
    _coalesced_generate_ai_summary with its inflight_ai_tasks registry.

Modelling conventions:
  * Python values stored in the cache are modelled by the inductive PyVal
    (the JSON-like fragment: None, bool, int, float, str, list, tuple, dict
    with string keys).  Floats are carried opaquely as their shortest decimal
    repr string; IEEE arithmetic is not modelled (no claim needs it).
  * Wall-clock datetime.now() is an explicit Nat parameter now; TTLs are Nat
    seconds; an entry with expiry e is live at time t iff t < e, matching
    both datetime comparison in cache_manager.py and Redis SETEX semantics.
  * The Redis client is modelled by an association list of live keyed entries
    plus a RedisConn parameter saying whether the client is None (absent),
    raises on every call (failing), or works (ok).  Exceptions raised by the
    client are modelled with Except and caught exactly where the Python code
    has try/except.
  * Python dicts are association lists; assignment d[k] = v replaces the
    first binding in place or appends a new one, preserving insertion order,
    exactly like CPython dicts.
-/

namespace LibApp

/-- Python values cacheable by the application (the acyclic, string-keyed
fragment that actually flows through src/cache_manager.py). -/
inductive PyVal where
  | none
  | bool (b : Bool)
  | int (n : Int)
  | float (r : String)
  | str (s : String)
  | list (xs : List PyVal)
  | tuple (xs : List PyVal)
  | dict (kvs : List (String × PyVal))
  deriving Repr, Inhabited

/-- JSON documents, the image of json.dumps / the domain of json.loads.
Floats are carried as their decimal literal text. -/
inductive JVal where
  | null
  | bool (b : Bool)
  | int (n : Int)
  | float (r : String)
  | str (s : String)
  | arr (xs : List JVal)
  | obj (kvs : List (String × JVal))
  deriving Repr, Inhabited

mutual

/-- The JSON document produced by json.dumps for a PyVal; tuples serialize
as JSON arrays (CPython's json encoder treats tuples like lists).  On this
fragment json.dumps never raises, so the default=str escape hatch of
_serialize_value is never exercised. -/
def toJson : PyVal → JVal
  | .none => .null
  | .bool b => .bool b
  | .int n => .int n
  | .float r => .float r
  | .str s => .str s
  | .list xs => .arr (toJsonList xs)
  | .tuple xs => .arr (toJsonList xs)
  | .dict kvs => .obj (toJsonKvs kvs)

def toJsonList : List PyVal → List JVal
  | [] => []
  | x :: xs => toJson x :: toJsonList xs

def toJsonKvs : List (String × PyVal) → List (String × JVal)
  | [] => []
  | (k, v) :: kvs => (k, toJson v) :: toJsonKvs kvs

end

mutual

/-- The Python value produced by json.loads for a JSON document: arrays come
back as lists (never tuples), objects as dicts in source order. -/
def ofJson : JVal → PyVal
  | .null => .none
  | .bool b => .bool b
  | .int n => .int n
  | .float r => .float r
  | .str s => .str s
  | .arr xs => .list (ofJsonList xs)
  | .obj kvs => .dict (ofJsonKvs kvs)

def ofJsonList : List JVal → List PyVal
  | [] => []
  | x :: xs => ofJson x :: ofJsonList xs

def ofJsonKvs : List (String × JVal) → List (String × PyVal)
  | [] => []
  | (k, v) :: kvs => (k, ofJson v) :: ofJsonKvs kvs

end

/-- Serialized byte strings written to Redis, distinguished by their marker
bytes: b'j:' followed by a JSON document, or b'p:' followed by a pickle
(modelled by the pickled value itself, since pickle round-trips). -/
inductive SerialVal where
  | jsonBytes (j : JVal)
  | pickleBytes (v : PyVal)
  deriving Repr, Inhabited

/-- CacheManager._serialize_value: try json.dumps(value, default=str,
ensure_ascii=False) first; on TypeError/ValueError fall back to pickle.
On the PyVal fragment (string keys, acyclic) json.dumps always succeeds,
so the pickle branch is unreachable here. -/
def serializeValue (value : PyVal) : SerialVal :=
  .jsonBytes (toJson value)

/-- CacheManager._deserialize_value: dispatch on the leading marker. -/
def deserializeValue : SerialVal → PyVal
  | .jsonBytes j => ofJson j
  | .pickleBytes v => v

/-- CacheManager._make_key: namespace every key under the library_cache:
prefix before talking to Redis (the memory tier uses the raw key). -/
def makeKey (key : String) : String :=
  "library_cache:" ++ key

/-! Association lists with CPython dict semantics. -/

/-- dict lookup d.get(k): first binding wins (bindings are unique in real
dicts; well-formedness is tracked separately). -/
def alookup {β : Type} : List (String × β) → String → Option β
  | [], _ => Option.none
  | (k, v) :: tl, key => if k = key then some v else alookup tl key

/-- dict assignment d[k] = v: replace the first binding in place, or append
a fresh binding at the end, preserving insertion order. -/
def aupdate {β : Type} : List (String × β) → String → β → List (String × β)
  | [], key, v => [(key, v)]
  | (k, w) :: tl, key, v =>
      if k = key then (k, v) :: tl else (k, w) :: aupdate tl key v

/-- dict removal d.pop(k, None): drop the first binding for k, if any. -/
def aerase {β : Type} : List (String × β) → String → List (String × β)
  | [], _ => []
  | (k, w) :: tl, key => if k = key then tl else (k, w) :: aerase tl key

/-- Keys of a dict in insertion order. -/
def akeys {β : Type} (d : List (String × β)) : List String :=
  d.map Prod.fst

/-- Whether the string s starts with the string p (str.startswith). -/
def strStarts (p s : String) : Bool :=
  go p.data s.data
where
  go : List Char → List Char → Bool
    | [], _ => true
    | _ :: _, [] => false
    | a :: as, b :: bs => a == b && go as bs

/-- pattern.replace(CHR42, EMPTY): delete every star character. -/
def stripStars (pat : String) : String :=
  String.mk (pat.data.filter (fun c => c ≠ Char.ofNat 42))

/-- Worker for Redis glob matching, structurally recursive on a fuel bound
(every step shrinks pattern + text, so fuel beyond their combined length
never runs out). -/
def globMatchF : Nat → List Char → List Char → Bool
  | 0, _, _ => false
  | _ + 1, [], [] => true
  | _ + 1, [], _ :: _ => false
  | fuel + 1, p :: ps, [] => p == Char.ofNat 42 && globMatchF fuel ps []
  | fuel + 1, p :: ps, c :: cs =>
      if p = Char.ofNat 42 then
        globMatchF fuel ps (c :: cs) || globMatchF fuel (p :: ps) cs
      else p == c && globMatchF fuel ps cs

/-- Redis glob matching for the fragment the repository uses: literal
characters and the star wildcard (KEYS patterns here are always either a
literal key or a prefix followed by one star). -/
def globMatch (ps cs : List Char) : Bool :=
  globMatchF (ps.length + cs.length + 1) ps cs

/-- Connectivity of the Redis client for one call: the client object is None
(absent, Redis library missing or startup ping failed), or present but the
operation raises (failing: connection error / timeout), or working (ok). -/
inductive RedisConn where
  | absent
  | failing
  | ok
  deriving Repr, DecidableEq

/-- The whole observable state of a CacheManager instance: the remote Redis
tier (live entries key ↦ bytes with absolute expiry), the in-process
memory_cache dict (key ↦ (value, expires_at)), and the cache_stats counters. -/
structure CacheState where
  redis : List (String × SerialVal × Nat)
  memory : List (String × PyVal × Nat)
  hits : Nat
  misses : Nat
  redisHits : Nat
  memoryHits : Nat

/-- A CacheManager as freshly constructed: both tiers empty, zero stats. -/
def emptyCache : CacheState :=
  ⟨[], [], 0, 0, 0, 0⟩

/-- redis.get(cache_key): raises on a failing connection, otherwise returns
the live value (expired keys are gone as far as reads are concerned). -/
def redisGET (conn : RedisConn) (redis : List (String × SerialVal × Nat))
    (cacheKey : String) (now : Nat) : Except Unit (Option SerialVal) :=
  match conn with
  | .failing => .error ()
  | _ =>
      .ok (match alookup redis cacheKey with
           | some (sv, exp) => if now < exp then some sv else Option.none
           | Option.none => Option.none)

/-- redis.setex(cache_key, ttl, bytes): store with absolute expiry now + ttl. -/
def redisSETEX (conn : RedisConn) (redis : List (String × SerialVal × Nat))
    (cacheKey : String) (ttl : Nat) (sv : SerialVal) (now : Nat) :
    Except Unit (List (String × SerialVal × Nat)) :=
  match conn with
  | .failing => .error ()
  | _ => .ok (aupdate redis cacheKey (sv, now + ttl))

/-- redis.delete(cache_key): returns how many keys were removed (0 or 1). -/
def redisDEL (conn : RedisConn) (redis : List (String × SerialVal × Nat))
    (cacheKey : String) : Except Unit (Nat × List (String × SerialVal × Nat)) :=
  match conn with
  | .failing => .error ()
  | _ => .ok (if (alookup redis cacheKey).isSome then 1 else 0, aerase redis cacheKey)

/-- redis.keys(pattern): the live keys whose name matches the glob pattern. -/
def redisKEYS (conn : RedisConn) (redis : List (String × SerialVal × Nat))
    (pat : String) (now : Nat) : Except Unit (List String) :=
  match conn with
  | .failing => .error ()
  | _ =>
      .ok ((redis.filter (fun e => now < e.2.2 && globMatch pat.data e.1.data)).map
            Prod.fst)

/-- redis.delete(k1, k2, ...): delete each key, returning the count removed. -/
def redisDELmany (redis : List (String × SerialVal × Nat)) (ks : List String) :
    Nat × List (String × SerialVal × Nat) :=
  ks.foldl
    (fun acc k =>
      ((if (alookup acc.2 k).isSome then acc.1 + 1 else acc.1), aerase acc.2 k))
    (0, redis)

/-- The memory-tier fallback inside CacheManager.get: look the raw key up in
memory_cache; a live entry is a memory hit, an expired entry is deleted and
the lookup falls through to the shared miss accounting at the end. -/
def memoryLookup (st : CacheState) (key : String) (now : Nat) :
    PyVal × CacheState :=
  match alookup st.memory key with
  | some (value, expiresAt) =>
      if now < expiresAt then
        (value, { st with hits := st.hits + 1, memoryHits := st.memoryHits + 1 })
      else
        let st := { st with memory := aerase st.memory key }
        (PyVal.none, { st with misses := st.misses + 1 })
  | Option.none => (PyVal.none, { st with misses := st.misses + 1 })

namespace CacheManager

/-- CacheManager.get: try Redis first (an exception is logged and swallowed,
degrading to the memory tier); a remote hit deserializes the stored bytes;
otherwise fall back to the bounded memory cache.  Returns the value
(Python None doubles as the miss result) and the updated state. -/
def get (conn : RedisConn) (st : CacheState) (key : String) (now : Nat) :
    PyVal × CacheState :=
  let cacheKey := makeKey key
  match conn with
  | .absent => memoryLookup st key now
  | _ =>
      match redisGET conn st.redis cacheKey now with
      | .ok (some data) =>
          (deserializeValue data,
           { st with hits := st.hits + 1, redisHits := st.redisHits + 1 })
      | .ok Option.none => memoryLookup st key now
      | .error _ => memoryLookup st key now

/-- The items of memory_cache sorted by expiry, sorted(items, key=...):
Python sorted is stable; every property proved below is independent of how
ties are ordered. -/
def sortByExpiry (mem : List (String × PyVal × Nat)) :
    List (String × PyVal × Nat) :=
  List.insertionSort (fun a b => a.2.2 ≤ b.2.2) mem

/-- The bounded-eviction step of CacheManager.set: once the dict holds more
than 1000 items, drop the 10 percent with the earliest expiry
(for k, _ in sorted_items[:100]: pop(k, None)). -/
def evictOldest (mem : List (String × PyVal × Nat)) :
    List (String × PyVal × Nat) :=
  ((sortByExpiry mem).take 100).foldl (fun m e => aerase m e.1) mem

/-- CacheManager.set: serialize and best-effort SETEX into Redis (exceptions
swallowed), then unconditionally store (value, now + ttl) in memory_cache,
evicting the oldest tenth when the dict exceeds 1000 entries.  Returns
redis_success or True — i.e. always True — plus the updated state. -/
def set (conn : RedisConn) (st : CacheState) (key : String) (value : PyVal)
    (ttlSeconds : Nat) (now : Nat) : Bool × CacheState :=
  let cacheKey := makeKey key
  let serialized := serializeValue value
  let (redisSuccess, redis1) :=
    match conn with
    | .absent => (false, st.redis)
    | _ =>
        match redisSETEX conn st.redis cacheKey ttlSeconds serialized now with
        | .ok r => (true, r)
        | .error _ => (false, st.redis)
  let expiresAt := now + ttlSeconds
  let mem := aupdate st.memory key (value, expiresAt)
  let mem := if mem.length > 1000 then evictOldest mem else mem
  (redisSuccess || true, { st with redis := redis1, memory := mem })

/-- CacheManager.delete: best-effort DEL on Redis (exceptions swallowed),
always pop from memory_cache; true iff either tier had the key. -/
def delete (conn : RedisConn) (st : CacheState) (key : String) :
    Bool × CacheState :=
  let cacheKey := makeKey key
  let (redisDeleted, redis1) :=
    match conn with
    | .absent => (false, st.redis)
    | _ =>
        match redisDEL conn st.redis cacheKey with
        | .ok (n, r) => (n ≠ 0, r)
        | .error _ => (false, st.redis)
  let memoryDeleted := (alookup st.memory key).isSome
  (redisDeleted || memoryDeleted,
   { st with redis := redis1, memory := aerase st.memory key })

/-- CacheManager.invalidate_pattern: KEYS + DEL on Redis with the pattern
verbatim under the library_cache: namespace (exceptions swallowed), then a
linear scan of memory_cache removing every key that starts with the pattern
minus its stars, counting one per removed key on top of Redis's count. -/
def invalidatePattern (conn : RedisConn) (st : CacheState) (pat : String)
    (now : Nat) : Nat × CacheState :=
  let cachePat := makeKey pat
  let (count, redis1) :=
    match conn with
    | .absent => (0, st.redis)
    | _ =>
        match redisKEYS conn st.redis cachePat now with
        | .ok ks =>
            if ks.isEmpty then (0, st.redis)
            else
              let (n, r) := redisDELmany st.redis ks
              (n, r)
        | .error _ => (0, st.redis)
  let pfx := stripStars pat
  let keysToRemove := (akeys st.memory).filter (fun k => strStarts pfx k)
  let (count, mem) :=
    keysToRemove.foldl (fun acc k => (acc.1 + 1, aerase acc.2 k))
      (count, st.memory)
  (count, { st with redis := redis1, memory := mem })

end CacheManager

/-- The api.py helper invalidate_cache(prefix): delegates to
invalidate_pattern with a star appended to the prefix. -/
def invalidateCache (conn : RedisConn) (st : CacheState) (pfx : String)
    (now : Nat) : Nat × CacheState :=
  CacheManager.invalidatePattern conn st (pfx ++ "*") now

/-! Python string ordering (code-point lexicographic), used by
json.dumps(..., sort_keys=True) and by sorted(...). -/

/-- Lexicographic strict comparison of character lists by code point. -/
def charsLtb : List Char → List Char → Bool
  | [], [] => false
  | [], _ :: _ => true
  | _ :: _, [] => false
  | a :: as, b :: bs =>
      if a.toNat < b.toNat then true
      else if b.toNat < a.toNat then false
      else charsLtb as bs

/-- Python operator a < b on strings. -/
def strLtb (a b : String) : Bool :=
  charsLtb a.data b.data

/-- Python operator a <= b on strings (total order). -/
def strLeb (a b : String) : Bool :=
  !(strLtb b a)

/-! The content fingerprint (strong ETag) of src/api.py. -/

/-- Lowercase hex digit for a value below 16. -/
def hexDigit (n : Nat) : Char :=
  if n < 10 then Char.ofNat (48 + n) else Char.ofNat (87 + n)

/-- A JSON backslash-u escape of a BMP code point (four hex digits). -/
def uEscape (n : Nat) : List Char :=
  [Char.ofNat 92, Char.ofNat 117,
   hexDigit (n / 4096 % 16), hexDigit (n / 256 % 16),
   hexDigit (n / 16 % 16), hexDigit (n % 16)]

/-- How json.dumps escapes one character inside a string literal.  With
ensure_ascii (the default, used by _compute_etag_from_dict) every
non-ASCII BMP code point becomes a backslash-u escape; astral characters
(surrogate pairs in CPython) are outside the modelled fragment. -/
def jsonEscapeChar (ensureAscii : Bool) (c : Char) : List Char :=
  if c = Char.ofNat 34 then [Char.ofNat 92, Char.ofNat 34]
  else if c = Char.ofNat 92 then [Char.ofNat 92, Char.ofNat 92]
  else if c = Char.ofNat 10 then [Char.ofNat 92, Char.ofNat 110]
  else if c = Char.ofNat 9 then [Char.ofNat 92, Char.ofNat 116]
  else if c = Char.ofNat 13 then [Char.ofNat 92, Char.ofNat 114]
  else if c = Char.ofNat 8 then [Char.ofNat 92, Char.ofNat 98]
  else if c = Char.ofNat 12 then [Char.ofNat 92, Char.ofNat 102]
  else if c.toNat < 32 then uEscape c.toNat
  else if ensureAscii && c.toNat > 126 then uEscape c.toNat
  else [c]

/-- A JSON string literal for s, quotes included. -/
def jsonQuote (ensureAscii : Bool) (s : String) : String :=
  String.mk
    (Char.ofNat 34 :: (s.data.foldr (fun c acc => jsonEscapeChar ensureAscii c ++ acc) [Char.ofNat 34]))

mutual

/-- json.dumps with default separators: the serialized text of a JSON
document; with sortKeys, object items are sorted by raw key first
(sort_keys=True), exactly as _compute_etag_from_dict calls it. -/
def dumpJson (sortKeys ensureAscii : Bool) : JVal → String
  | .null => "null"
  | .bool true => "true"
  | .bool false => "false"
  | .int n => toString n
  | .float r => r
  | .str s => jsonQuote ensureAscii s
  | .arr xs => "[" ++ String.intercalate ", " (dumpJsonList sortKeys ensureAscii xs) ++ "]"
  | .obj kvs =>
      let pairs := dumpJsonKvs sortKeys ensureAscii kvs
      let pairs :=
        if sortKeys then List.insertionSort (fun a b => strLeb a.1 b.1 = true) pairs
        else pairs
      "\x7b" ++
        String.intercalate ", "
          (pairs.map (fun p => jsonQuote ensureAscii p.1 ++ ": " ++ p.2)) ++
        "\x7d"

def dumpJsonList (sortKeys ensureAscii : Bool) : List JVal → List String
  | [] => []
  | x :: xs => dumpJson sortKeys ensureAscii x :: dumpJsonList sortKeys ensureAscii xs

def dumpJsonKvs (sortKeys ensureAscii : Bool) :
    List (String × JVal) → List (String × String)
  | [] => []
  | (k, v) :: kvs =>
      (k, dumpJson sortKeys ensureAscii v) :: dumpJsonKvs sortKeys ensureAscii kvs

end

/-- A 16-digit lowercase hex rendering of a Nat below 2 to the 64. -/
def hex16 (n : Nat) : String :=
  String.mk ((List.range 16).reverse.map (fun i => hexDigit (n / 16 ^ i % 16)))

/-- Model of hashlib digests (sha256 in _compute_etag_from_dict, md5 in the
cached decorator): a deterministic fixed-length lowercase hex digest of the
input text.  The claims rely only on determinism — equal input bytes give
equal digests — never on the internal compression function, so a simple
64-bit polynomial hash stands in for the real algorithm. -/
def digestHex (s : String) : String :=
  hex16 (s.data.foldl (fun h c => (h * 31 + c.toNat) % 18446744073709551616) 5381)

/-- api._compute_etag_from_dict: hash of
json.dumps(payload, sort_keys=True, default=str) in UTF-8, wrapped in the
quote characters the source interpolates (two leading double quotes, one
trailing — verbatim from the f-string).  On the string-keyed PyVal fragment
json.dumps cannot raise, so the repr(payload) fallback is unreachable. -/
def computeEtagFromDict (payload : List (String × PyVal)) : String :=
  let raw := dumpJson true true (toJson (.dict payload))
  "\"\"" ++ digestHex raw ++ "\""

/-! json.loads, for the fragment _ensure_list_of_str can feed it: null,
booleans, integers, non-exponent decimals, strings with simple escapes,
arrays and objects.  Structurally recursive on a fuel bound; every
recursive call consumes at least one input character, so fuel beyond the
input length never runs out. -/

/-- Skip JSON whitespace. -/
def skipWs (cs : List Char) : List Char :=
  cs.dropWhile (fun c =>
    c = Char.ofNat 32 || c = Char.ofNat 9 || c = Char.ofNat 10 || c = Char.ofNat 13)

/-- Decimal digit test. -/
def isDigitCh (c : Char) : Bool :=
  47 < c.toNat && c.toNat < 58

/-- Value of a digit string. -/
def digitsToNat (ds : List Char) : Nat :=
  ds.foldl (fun n c => n * 10 + (c.toNat - 48)) 0

/-- Python repr of a float given as sign, integer digits and fraction
digits: leading zeros of the integer part and trailing zeros of the
fraction are dropped, and an empty fraction renders as .0 — the shortest
repr of floats that are exactly representable (the modelled fragment). -/
def canonFloatRepr (neg : Bool) (ds fs : List Char) : String :=
  let ds := ds.reverse.dropWhile (fun c => c = Char.ofNat 48) |>.reverse
  let ds := if ds.isEmpty then [Char.ofNat 48] else ds
  let fs := fs.reverse.dropWhile (fun c => c = Char.ofNat 48) |>.reverse
  let body :=
    if fs.isEmpty then String.mk ds ++ ".0"
    else String.mk ds ++ "." ++ String.mk fs
  if neg then "-" ++ body else body

/-- Parse the body of a JSON string literal (after the opening quote); the
escape repertoire covers the sequences the repository's data can contain. -/
def parseJStrGo (acc : List Char) : List Char → Option (String × List Char)
  | [] => Option.none
  | c :: cs =>
      if c = Char.ofNat 34 then some (String.mk acc.reverse, cs)
      else if c = Char.ofNat 92 then
        match cs with
        | [] => Option.none
        | e :: cs2 =>
            if e = Char.ofNat 34 then parseJStrGo (Char.ofNat 34 :: acc) cs2
            else if e = Char.ofNat 92 then parseJStrGo (Char.ofNat 92 :: acc) cs2
            else if e = Char.ofNat 47 then parseJStrGo (Char.ofNat 47 :: acc) cs2
            else if e = Char.ofNat 110 then parseJStrGo (Char.ofNat 10 :: acc) cs2
            else if e = Char.ofNat 116 then parseJStrGo (Char.ofNat 9 :: acc) cs2
            else if e = Char.ofNat 114 then parseJStrGo (Char.ofNat 13 :: acc) cs2
            else if e = Char.ofNat 98 then parseJStrGo (Char.ofNat 8 :: acc) cs2
            else if e = Char.ofNat 102 then parseJStrGo (Char.ofNat 12 :: acc) cs2
            else Option.none
      else parseJStrGo (c :: acc) cs

/-- Parse a JSON number (integer or plain decimal; exponents are outside
the modelled fragment). -/
def parseJNum (cs : List Char) : Option (JVal × List Char) :=
  let (neg, cs) :=
    match cs with
    | c :: rest => if c = Char.ofNat 45 then (true, rest) else (false, cs)
    | [] => (false, cs)
  let ds := cs.takeWhile isDigitCh
  let cs := cs.dropWhile isDigitCh
  if ds.isEmpty then Option.none
  else
    match cs with
    | c :: rest =>
        if c = Char.ofNat 46 then
          let fs := rest.takeWhile isDigitCh
          let rest := rest.dropWhile isDigitCh
          if fs.isEmpty then Option.none
          else some (.float (canonFloatRepr neg ds fs), rest)
        else
          some (.int (if neg then -(digitsToNat ds : Int) else (digitsToNat ds : Int)), cs)
    | [] => some (.int (if neg then -(digitsToNat ds : Int) else (digitsToNat ds : Int)), cs)

mutual

/-- Parse one JSON value. -/
def parseJV : Nat → List Char → Option (JVal × List Char)
  | 0, _ => Option.none
  | fuel + 1, cs =>
      match skipWs cs with
      | [] => Option.none
      | c :: rest =>
          if c = Char.ofNat 110 then
            match rest with
            | u :: l1 :: l2 :: rest2 =>
                if u = Char.ofNat 117 && l1 = Char.ofNat 108 && l2 = Char.ofNat 108 then
                  some (.null, rest2)
                else Option.none
            | _ => Option.none
          else if c = Char.ofNat 116 then
            match rest with
            | r :: u :: e :: rest2 =>
                if r = Char.ofNat 114 && u = Char.ofNat 117 && e = Char.ofNat 101 then
                  some (.bool true, rest2)
                else Option.none
            | _ => Option.none
          else if c = Char.ofNat 102 then
            match rest with
            | a :: l :: s :: e :: rest2 =>
                if a = Char.ofNat 97 && l = Char.ofNat 108 && s = Char.ofNat 115 &&
                   e = Char.ofNat 101 then
                  some (.bool false, rest2)
                else Option.none
            | _ => Option.none
          else if c = Char.ofNat 34 then
            match parseJStrGo [] rest with
            | some (s, rest2) => some (.str s, rest2)
            | Option.none => Option.none
          else if c = Char.ofNat 91 then
            match parseJArr fuel rest with
            | some (xs, rest2) => some (.arr xs, rest2)
            | Option.none => Option.none
          else if c = Char.ofNat 123 then
            match parseJObj fuel rest with
            | some (kvs, rest2) => some (.obj kvs, rest2)
            | Option.none => Option.none
          else parseJNum (c :: rest)

/-- Parse array items after the opening bracket. -/
def parseJArr : Nat → List Char → Option (List JVal × List Char)
  | 0, _ => Option.none
  | fuel + 1, cs =>
      match skipWs cs with
      | [] => Option.none
      | c :: rest =>
          if c = Char.ofNat 93 then some ([], rest)
          else
            match parseJV fuel (c :: rest) with
            | some (x, rest2) =>
                match parseJArrTail fuel rest2 with
                | some (xs, rest3) => some (x :: xs, rest3)
                | Option.none => Option.none
            | Option.none => Option.none

/-- Parse comma-separated continuation of an array. -/
def parseJArrTail : Nat → List Char → Option (List JVal × List Char)
  | 0, _ => Option.none
  | fuel + 1, cs =>
      match skipWs cs with
      | [] => Option.none
      | c :: rest =>
          if c = Char.ofNat 93 then some ([], rest)
          else if c = Char.ofNat 44 then
            match parseJV fuel rest with
            | some (x, rest2) =>
                match parseJArrTail fuel rest2 with
                | some (xs, rest3) => some (x :: xs, rest3)
                | Option.none => Option.none
            | Option.none => Option.none
          else Option.none

/-- Parse object items after the opening brace. -/
def parseJObj : Nat → List Char → Option (List (String × JVal) × List Char)
  | 0, _ => Option.none
  | fuel + 1, cs =>
      match skipWs cs with
      | [] => Option.none
      | c :: rest =>
          if c = Char.ofNat 125 then some ([], rest)
          else
            match parseJMember fuel (c :: rest) with
            | some (kv, rest2) =>
                match parseJObjTail fuel rest2 with
                | some (kvs, rest3) => some (kv :: kvs, rest3)
                | Option.none => Option.none
            | Option.none => Option.none

/-- Parse comma-separated continuation of an object. -/
def parseJObjTail : Nat → List Char → Option (List (String × JVal) × List Char)
  | 0, _ => Option.none
  | fuel + 1, cs =>
      match skipWs cs with
      | [] => Option.none
      | c :: rest =>
          if c = Char.ofNat 125 then some ([], rest)
          else if c = Char.ofNat 44 then
            match parseJMember fuel rest with
            | some (kv, rest2) =>
                match parseJObjTail fuel rest2 with
                | some (kvs, rest3) => some (kv :: kvs, rest3)
                | Option.none => Option.none
            | Option.none => Option.none
          else Option.none

/-- Parse one key: value member of an object. -/
def parseJMember : Nat → List Char → Option ((String × JVal) × List Char)
  | 0, _ => Option.none
  | fuel + 1, cs =>
      match skipWs cs with
      | [] => Option.none
      | c :: rest =>
          if c = Char.ofNat 34 then
            match parseJStrGo [] rest with
            | some (k, rest2) =>
                match skipWs rest2 with
                | c2 :: rest3 =>
                    if c2 = Char.ofNat 58 then
                      match parseJV fuel rest3 with
                      | some (v, rest4) => some ((k, v), rest4)
                      | Option.none => Option.none
                    else Option.none
                | [] => Option.none
            | Option.none => Option.none
          else Option.none

end

/-- json.loads(s): parse a complete document, rejecting trailing garbage. -/
def jsonLoads (s : String) : Option JVal :=
  match parseJV (2 * s.length + 2) s.data with
  | some (j, rest) => if (skipWs rest).isEmpty then some j else Option.none
  | Option.none => Option.none

/-- Render already-repr-ed items as a Python tuple literal (a one-element
tuple carries the trailing comma). -/
def tupleText (items : List String) : String :=
  match items with
  | [x] => "(" ++ x ++ ",)"
  | _ => "(" ++ String.intercalate ", " items ++ ")"

mutual

/-- Python str(x) on the PyVal fragment: scalars by their canonical text,
containers by their repr (CPython renders list/tuple/dict elements with
repr). -/
def pyStr : PyVal → String
  | .none => "None"
  | .bool true => "True"
  | .bool false => "False"
  | .int n => toString n
  | .float r => r
  | .str s => s
  | .list xs => "[" ++ String.intercalate ", " (pyReprList xs) ++ "]"
  | .tuple xs => tupleText (pyReprList xs)
  | .dict kvs => "\x7b" ++ String.intercalate ", " (pyReprKvs kvs) ++ "\x7d"

/-- Python repr(x): like str(x) except that strings gain single quotes
(embedded-quote escaping is outside the fragment the repository feeds it). -/
def pyRepr : PyVal → String
  | .str s => "'" ++ s ++ "'"
  | .none => "None"
  | .bool true => "True"
  | .bool false => "False"
  | .int n => toString n
  | .float r => r
  | .list xs => "[" ++ String.intercalate ", " (pyReprList xs) ++ "]"
  | .tuple xs => tupleText (pyReprList xs)
  | .dict kvs => "\x7b" ++ String.intercalate ", " (pyReprKvs kvs) ++ "\x7d"

def pyReprList : List PyVal → List String
  | [] => []
  | x :: xs => pyRepr x :: pyReprList xs

def pyReprKvs : List (String × PyVal) → List String
  | [] => []
  | (k, v) :: kvs => ("'" ++ k ++ "': " ++ pyRepr v) :: pyReprKvs kvs

end

/-- Parse a plain decimal literal: optional minus sign, integer digits,
optional fraction digits.  This is the fragment of Python float(s) syntax
that the repository's numeric-as-string fields use (no exponents, no
inf/nan, no surrounding whitespace). -/
def parseDecString (s : String) : Option (Bool × List Char × List Char) :=
  let (neg, cs) :=
    match s.data with
    | c :: rest => if c = Char.ofNat 45 then (true, rest) else (false, s.data)
    | [] => (false, s.data)
  let ds := cs.takeWhile isDigitCh
  let cs := cs.dropWhile isDigitCh
  if ds.isEmpty then Option.none
  else
    match cs with
    | [] => some (neg, ds, [])
    | c :: rest =>
        if c = Char.ofNat 46 then
          let fs := rest.takeWhile isDigitCh
          let rest := rest.dropWhile isDigitCh
          if fs.isEmpty || !rest.isEmpty then Option.none
          else some (neg, ds, fs)
        else Option.none

/-- Python int(float(s)) on the modelled fragment: parse the decimal and
truncate toward zero (drop the fraction, keep the sign).  Fails — raises
ValueError in Python — on anything that is not a decimal literal. -/
def pyIntOfFloatStr (s : String) : Option Int :=
  match parseDecString s with
  | some (neg, ds, _) =>
      some (if neg then -(digitsToNat ds : Int) else (digitsToNat ds : Int))
  | Option.none => Option.none

/-- Python float(s) on the modelled fragment, returning the canonical repr
text of the resulting float. -/
def pyFloatOfStr (s : String) : Option String :=
  match parseDecString s with
  | some (neg, ds, fs) => some (canonFloatRepr neg ds fs)
  | Option.none => Option.none

/-- dict.get(k): the stored value, or None when the key is absent (the two
are indistinguishable to the Python code, which only tests is None /
isinstance). -/
def aget (d : List (String × PyVal)) (k : String) : PyVal :=
  (alookup d k).getD .none

/-- api._ensure_list_of_str: None passes through; a string is first offered
to json.loads (a failed parse wraps the raw string in a singleton list);
lists and tuples map str over their items; any other scalar is wrapped as a
singleton.  (The set branch and the defensive outer except-return-None
cannot trigger on the PyVal fragment, where str() always succeeds.) -/
def ensureListOfStr (value : PyVal) : PyVal :=
  match value with
  | .none => .none
  | .str s =>
      match jsonLoads s with
      | some j =>
          match ofJson j with
          | .list xs => .list (xs.map (fun x => .str (pyStr x)))
          | v => .list [.str (pyStr v)]
      | Option.none => .list [.str s]
  | .list xs => .list (xs.map (fun x => .str (pyStr x)))
  | .tuple xs => .list (xs.map (fun x => .str (pyStr x)))
  | v => .list [.str (pyStr v)]

/-- One iteration of the numeric loop in _normalize_enhanced_payload:
if the field holds a string, coerce via int(float(v)), storing None when
that raises; non-strings and absent values are left alone. -/
def coerceIntField (out : List (String × PyVal)) (k : String) :
    List (String × PyVal) :=
  match aget out k with
  | .str s =>
      match pyIntOfFloatStr s with
      | some n => aupdate out k (.int n)
      | Option.none => aupdate out k .none
  | _ => out

/-- The google_rating branch: a string is coerced via float(v), storing
None when that raises. -/
def coerceFloatField (out : List (String × PyVal)) (k : String) :
    List (String × PyVal) :=
  match aget out k with
  | .str s =>
      match pyFloatOfStr s with
      | some r => aupdate out k (.float r)
      | Option.none => aupdate out k .none
  | _ => out

/-- The datetime-and-language branches: a present non-string value is
replaced by str(v); None and strings are left alone. -/
def coerceStrField (out : List (String × PyVal)) (k : String) :
    List (String × PyVal) :=
  match aget out k with
  | .none => out
  | .str _ => out
  | v => aupdate out k (.str (pyStr v))

/-- api._normalize_enhanced_payload: copy the dict, then normalize the
EnhancedBookModel fields one by one, in source order. -/
def normalizeEnhancedPayload (d : List (String × PyVal)) :
    List (String × PyVal) :=
  let out := d
  let out := aupdate out "categories" (ensureListOfStr (aget out "categories"))
  let out := aupdate out "data_sources" (ensureListOfStr (aget out "data_sources"))
  let out := coerceIntField out "page_count"
  let out := coerceIntField out "google_rating_count"
  let out := coerceFloatField out "google_rating"
  let out := coerceStrField out "created_at"
  let out := coerceStrField out "ai_summary_generated_at"
  let out := coerceStrField out "published_date"
  let out := coerceStrField out "language"
  out

/-- The cache key built by the cached(...) decorator wrapper: the prefixed
function name plus the md5 digest of str(args) + str(sorted(kwargs.items())),
the latter supplied here as the already-rendered argsStr text. -/
def cachedKey (keyPfx funcName argsStr : String) : String :=
  let fn := if keyPfx = "" then funcName else keyPfx ++ ":" ++ funcName
  fn ++ ":" ++ digestHex argsStr

/-- One invocation of a cached(ttl, key_prefix)-wrapped function: consult
the cache and return a non-None result directly; otherwise execute the
function, store its result, and return it.  The final Bool reports whether
the wrapped function was executed. -/
def cachedCall (conn : RedisConn) (st : CacheState)
    (keyPfx funcName argsStr : String) (f : Unit → PyVal)
    (ttlSeconds now : Nat) : PyVal × CacheState × Bool :=
  let cacheKey := cachedKey keyPfx funcName argsStr
  let (result, st1) := CacheManager.get conn st cacheKey now
  match result with
  | .none =>
      let value := f ()
      let (_, st2) := CacheManager.set conn st1 cacheKey value ttlSeconds now
      (value, st2, true)
  | r => (r, st1, false)

/-!
Operational model of the single-flight coalescer
_coalesced_generate_ai_summary (src/api.py):

    async with inflight_ai_lock:
        task = inflight_ai_tasks.get(isbn)
        if task and not task.done():
            return await task
        task = asyncio.create_task(coro_factory())
        inflight_ai_tasks[isbn] = task
    try:
        return await task
    finally:
        async with inflight_ai_lock:
            if inflight_ai_tasks.get(isbn) is task:
                inflight_ai_tasks.pop(isbn, None)

asyncio is cooperative: code between awaits runs atomically.  The model's
atomic actions are exactly the suspension points of that function: the
locked check-and-register block, completion of a spawned task, resumption
of a waiter after its awaited task settles, and the locked finally block.
The model admits every schedule the event loop can produce — it even drops
the restriction that a joiner keeps the lock while it awaits, so the safety
theorems below hold for a superset of the real interleavings, while the
concrete counterexample traces use only lock-respecting schedules.

Task results are abstracted: a spawned coro_factory() computation may
settle with any value or any exception, injected by the settle action.
-/

/-- The result of one coalesced computation: the summary value or the
exception it raised, both abstracted to a numeric identity. -/
inductive Outcome where
  | ok (v : Nat)
  | err (e : Nat)
  deriving Repr, DecidableEq

/-- One asyncio.Task spawned by create_task: the isbn it computes for and
its settled result (Option.none while still running). -/
structure TaskInfo where
  key : String
  settled : Option Outcome
  deriving Repr, DecidableEq

/-- Where one caller of _coalesced_generate_ai_summary stands:
checking — about to execute the locked check-and-register block;
joined t — found task t in flight and is awaiting it (it will return the
result directly, never touching the finally block, because the return is
inside the async-with);
owner t — registered fresh task t and is awaiting it inside the try;
deregistering t r — resumed with result r, about to run the finally block;
finished r — returned r (or raised r, for an err outcome). -/
inductive CallerPhase where
  | checking
  | joined (t : Nat)
  | owner (t : Nat)
  | deregistering (t : Nat) (r : Outcome)
  | finished (r : Outcome)
  deriving Repr, DecidableEq

/-- One caller: its isbn, its phase, and (bookkeeping for the statements
only) the task it ended up awaiting. -/
structure Caller where
  key : String
  phase : CallerPhase
  awaited : Option Nat
  deriving Repr, DecidableEq

/-- Global coalescer state: all tasks ever spawned (task id = list index,
so tasks.length counts coro_factory invocations), the inflight_ai_tasks
dict, and the callers. -/
structure CoState where
  tasks : List TaskInfo
  registry : List (String × Nat)
  callers : List Caller
  deriving Repr, DecidableEq

/-- The scheduler's possible moves. -/
inductive Action where
  | check (c : Nat)
  | settle (t : Nat) (o : Outcome)
  | resumeJoined (c : Nat)
  | resumeOwner (c : Nat)
  | dereg (c : Nat)
  deriving Repr, DecidableEq

/-- The create-and-register tail of the locked block: spawn a fresh task
for the caller's key and make it the registry entry (overwriting a settled
predecessor, if any). -/
def createTask (s : CoState) (c : Nat) (caller : Caller) : CoState :=
  let t := s.tasks.length
  { tasks := s.tasks ++ [⟨caller.key, Option.none⟩]
    registry := aupdate s.registry caller.key t
    callers := s.callers.set c { caller with phase := .owner t, awaited := some t } }

/-- One atomic step; Option.none means the action is not enabled in this
state (that schedule cannot happen). -/
def step (s : CoState) : Action → Option CoState
  | .check c =>
      match s.callers[c]? with
      | some caller =>
          match caller.phase with
          | .checking =>
              match alookup s.registry caller.key with
              | some t =>
                  match s.tasks[t]? with
                  | some info =>
                      if info.settled = Option.none then
                        some { s with
                          callers := s.callers.set c
                            { caller with phase := .joined t, awaited := some t } }
                      else some (createTask s c caller)
                  | Option.none => Option.none
              | Option.none => some (createTask s c caller)
          | _ => Option.none
      | Option.none => Option.none
  | .settle t o =>
      match s.tasks[t]? with
      | some info =>
          if info.settled = Option.none then
            some { s with tasks := s.tasks.set t { info with settled := some o } }
          else Option.none
      | Option.none => Option.none
  | .resumeJoined c =>
      match s.callers[c]? with
      | some caller =>
          match caller.phase with
          | .joined t =>
              match s.tasks[t]? with
              | some info =>
                  match info.settled with
                  | some o =>
                      some { s with
                        callers := s.callers.set c { caller with phase := .finished o } }
                  | Option.none => Option.none
              | Option.none => Option.none
          | _ => Option.none
      | Option.none => Option.none
  | .resumeOwner c =>
      match s.callers[c]? with
      | some caller =>
          match caller.phase with
          | .owner t =>
              match s.tasks[t]? with
              | some info =>
                  match info.settled with
                  | some o =>
                      some { s with
                        callers := s.callers.set c
                          { caller with phase := .deregistering t o } }
                  | Option.none => Option.none
              | Option.none => Option.none
          | _ => Option.none
      | Option.none => Option.none
  | .dereg c =>
      match s.callers[c]? with
      | some caller =>
          match caller.phase with
          | .deregistering t r =>
              let registry :=
                if alookup s.registry caller.key = some t then
                  aerase s.registry caller.key
                else s.registry
              some { s with
                registry := registry
                callers := s.callers.set c { caller with phase := .finished r } }
          | _ => Option.none
      | Option.none => Option.none

/-- Run a whole schedule; Option.none when some action is not enabled. -/
def run (s : CoState) : List Action → Option CoState
  | [] => some s
  | a :: acts =>
      match step s a with
      | some s2 => run s2 acts
      | Option.none => Option.none

/-- The system as it stands when the callers arrive: no tasks spawned yet,
empty registry, every caller about to run its check (ks lists the callers'
keys). -/
def initCo (ks : List String) : CoState :=
  ⟨[], [], ks.map (fun k => ⟨k, .checking, Option.none⟩)⟩

/-- States the coalescer can actually be in. -/
inductive CoReachable : CoState → Prop where
  | init (ks : List String) : CoReachable (initCo ks)
  | next {s : CoState} {a : Action} {s2 : CoState} :
      CoReachable s → step s a = some s2 → CoReachable s2

/-- Position of caller c's check in a schedule (its call visibly starts). -/
def checkIdx (acts : List Action) (c : Nat) : Option Nat :=
  acts.indexOf? (.check c)

/-- Position of the action with which caller c's call returns: a joiner
returns at resumeJoined, an initiator at its finally-block dereg. -/
def finishIdx (acts : List Action) (c : Nat) : Option Nat :=
  acts.findIdx? (fun a => a = .resumeJoined c || a = .dereg c)

/-- All n callers overlap in time: every caller's call starts (checks)
strictly before any caller's call returns. -/
def allOverlap (acts : List Action) (n : Nat) : Prop :=
  ∀ c1 : Nat, c1 < n → ∀ c2 : Nat, c2 < n →
    ∃ i j : Nat, checkIdx acts c1 = some i ∧ finishIdx acts c2 = some j ∧ i < j

/-! Association-list lemmas (CPython dict semantics). -/

theorem alookup_aupdate_self {β : Type} (d : List (String × β)) (k : String)
    (v : β) : alookup (aupdate d k v) k = some v := by
  induction d with
  | nil => simp [aupdate, alookup]
  | cons hd tl ih =>
      obtain ⟨a, w⟩ := hd
      by_cases h : a = k <;> simp [aupdate, alookup, h, ih]

theorem alookup_aupdate_ne {β : Type} {d : List (String × β)} {k k2 : String}
    (v : β) (h : k2 ≠ k) : alookup (aupdate d k v) k2 = alookup d k2 := by
  induction d with
  | nil => simp [aupdate, alookup, Ne.symm h]
  | cons hd tl ih =>
      obtain ⟨a, w⟩ := hd
      by_cases ha : a = k
      · subst ha
        simp [aupdate, alookup, Ne.symm h]
      · simp [aupdate, alookup, ha, ih]

theorem aupdate_length_le {β : Type} (d : List (String × β)) (k : String)
    (v : β) : (aupdate d k v).length ≤ d.length + 1 := by
  induction d with
  | nil => simp [aupdate]
  | cons hd tl ih =>
      obtain ⟨a, w⟩ := hd
      by_cases h : a = k <;> simp [aupdate, h] <;> omega

theorem aerase_length_le {β : Type} (d : List (String × β)) (k : String) :
    (aerase d k).length ≤ d.length := by
  induction d with
  | nil => simp [aerase]
  | cons hd tl ih =>
      obtain ⟨a, w⟩ := hd
      by_cases h : a = k <;> simp [aerase, h] <;> omega

theorem aerase_length_of_present {β : Type} {d : List (String × β)}
    {k : String} (h : (alookup d k).isSome) :
    (aerase d k).length + 1 = d.length := by
  induction d with
  | nil => simp [alookup] at h
  | cons hd tl ih =>
      obtain ⟨a, w⟩ := hd
      by_cases ha : a = k
      · simp [aerase, ha]
      · simp [alookup, ha] at h
        simp [aerase, ha, ih h]

theorem mem_of_mem_aerase {β : Type} {d : List (String × β)} {k : String}
    {x : String × β} (h : x ∈ aerase d k) : x ∈ d := by
  induction d with
  | nil => simpa [aerase] using h
  | cons hd tl ih =>
      obtain ⟨a, w⟩ := hd
      by_cases ha : a = k
      · simp [aerase, ha] at h
        exact List.mem_cons_of_mem _ h
      · simp [aerase, ha] at h
        rcases h with h | h
        · simp [h]
        · exact List.mem_cons_of_mem _ (ih h)

theorem mem_aerase_of_ne {β : Type} {d : List (String × β)} {k : String}
    {x : String × β} (hne : x.1 ≠ k) (h : x ∈ d) : x ∈ aerase d k := by
  induction d with
  | nil => simpa [aerase] using h
  | cons hd tl ih =>
      obtain ⟨a, w⟩ := hd
      rcases List.mem_cons.mp h with h1 | h1
      · have ha : a ≠ k := by
          subst h1
          simpa using hne
        simp [aerase, ha, h1]
      · by_cases ha : a = k
        · simpa [aerase, ha] using h1
        · simp [aerase, ha]
          exact Or.inr (ih h1)

theorem alookup_aerase_ne {β : Type} {d : List (String × β)} {k k2 : String}
    (h : k2 ≠ k) : alookup (aerase d k) k2 = alookup d k2 := by
  induction d with
  | nil => simp [aerase]
  | cons hd tl ih =>
      obtain ⟨a, w⟩ := hd
      by_cases ha : a = k
      · subst ha
        simp [aerase, alookup, Ne.symm h]
      · simp [aerase, alookup, ha, ih]

theorem akeys_aerase_sublist {β : Type} (d : List (String × β)) (k : String) :
    (akeys (aerase d k)).Sublist (akeys d) := by
  induction d with
  | nil => simp [aerase, akeys]
  | cons hd tl ih =>
      obtain ⟨a, w⟩ := hd
      by_cases ha : a = k
      · simp only [aerase, if_pos ha, akeys, List.map_cons]
        exact List.sublist_cons_self _ _
      · simp only [aerase, if_neg ha, akeys, List.map_cons]
        exact List.Sublist.cons₂ _ ih

theorem nodup_akeys_aerase {β : Type} {d : List (String × β)} (k : String)
    (h : (akeys d).Nodup) : (akeys (aerase d k)).Nodup :=
  (akeys_aerase_sublist d k).nodup h

theorem alookup_aerase_self {β : Type} {d : List (String × β)} {k : String}
    (h : (akeys d).Nodup) : alookup (aerase d k) k = Option.none := by
  induction d with
  | nil => simp [aerase, alookup]
  | cons hd tl ih =>
      obtain ⟨a, w⟩ := hd
      simp only [akeys, List.map_cons, List.nodup_cons] at h
      by_cases ha : a = k
      · subst ha
        simp only [aerase, if_pos rfl]
        cases he : alookup tl a with
        | none => exact he
        | some v =>
            exfalso
            apply h.1
            clear ih h
            induction tl with
            | nil => simp [alookup] at he
            | cons hd2 tl2 ih2 =>
                obtain ⟨a2, w2⟩ := hd2
                by_cases h2 : a2 = a
                · simp [h2]
                · simp only [alookup, if_neg h2] at he
                  simp [akeys]
                  exact Or.inr (by simpa [akeys] using ih2 he)
      · simp [aerase, ha, alookup, ha, ih h.2]

theorem alookup_of_mem_nodup {β : Type} {d : List (String × β)} {k : String}
    {v : β} (hn : (akeys d).Nodup) (h : (k, v) ∈ d) : alookup d k = some v := by
  induction d with
  | nil => simp at h
  | cons hd tl ih =>
      obtain ⟨a, w⟩ := hd
      simp only [akeys, List.map_cons, List.nodup_cons] at hn
      rcases List.mem_cons.mp h with h1 | h1
      · cases h1
        simp [alookup]
      · have ha : a ≠ k := by
          intro he
          subst he
          exact hn.1 (by simpa [akeys] using List.mem_map_of_mem Prod.fst h1)
        simp [alookup, ha, ih hn.2 h1]

theorem alookup_isSome_of_mem_akeys {β : Type} {d : List (String × β)}
    {k : String} (h : k ∈ akeys d) : (alookup d k).isSome := by
  induction d with
  | nil => simp [akeys] at h
  | cons hd tl ih =>
      obtain ⟨a, w⟩ := hd
      by_cases ha : a = k
      · simp [alookup, ha]
      · simp only [akeys, List.map_cons, List.mem_cons] at h
        rcases h with h | h
        · exact absurd h.symm ha
        · simpa [alookup, ha] using ih (by simpa [akeys] using h)

theorem akeys_aupdate_of_mem {β : Type} {d : List (String × β)} {k : String}
    (v : β) (h : k ∈ akeys d) : akeys (aupdate d k v) = akeys d := by
  induction d with
  | nil => simp [akeys] at h
  | cons hd tl ih =>
      obtain ⟨a, w⟩ := hd
      by_cases ha : a = k
      · simp [aupdate, ha, akeys]
      · simp only [akeys, List.map_cons, List.mem_cons] at h
        rcases h with h | h
        · exact absurd h.symm ha
        · have h2 := ih (by simpa [akeys] using h)
          simp only [akeys] at h2
          simp [aupdate, ha, akeys, h2]

theorem akeys_aupdate_of_not_mem {β : Type} {d : List (String × β)}
    {k : String} (v : β) (h : k ∉ akeys d) :
    akeys (aupdate d k v) = akeys d ++ [k] := by
  induction d with
  | nil => simp [aupdate, akeys]
  | cons hd tl ih =>
      obtain ⟨a, w⟩ := hd
      simp only [akeys, List.map_cons, List.mem_cons] at h
      push_neg at h
      have h2 := ih (by simpa [akeys] using h.2)
      simp only [akeys] at h2
      simp [aupdate, Ne.symm h.1, akeys, h2]

theorem nodup_akeys_aupdate {β : Type} {d : List (String × β)} {k : String}
    (v : β) (h : (akeys d).Nodup) : (akeys (aupdate d k v)).Nodup := by
  by_cases hm : k ∈ akeys d
  · rw [akeys_aupdate_of_mem v hm]
    exact h
  · rw [akeys_aupdate_of_not_mem v hm]
    simp [List.nodup_append, h, hm]

theorem alookup_eq_none_iff {β : Type} {d : List (String × β)} {k : String} :
    alookup d k = Option.none ↔ k ∉ akeys d := by
  induction d with
  | nil => simp [alookup, akeys]
  | cons hd tl ih =>
      obtain ⟨a, w⟩ := hd
      by_cases ha : a = k
      · simp [alookup, akeys, ha]
      · simp only [alookup, if_neg ha, akeys, List.map_cons, List.mem_cons, ih]
        constructor
        · intro h
          push_neg
          exact ⟨fun he => ha he.symm, by simpa [akeys] using h⟩
        · intro h
          push_neg at h
          simpa [akeys] using h.2

theorem mem_foldl_aerase {β : Type} {ks : List String}
    {d : List (String × β)} {x : String × β}
    (h : x ∈ ks.foldl (fun m k => aerase m k) d) : x ∈ d := by
  induction ks generalizing d with
  | nil => simpa using h
  | cons k ks ih => exact mem_of_mem_aerase (ih (by simpa using h))

theorem foldl_aerase_length_le {β : Type} (ks : List String)
    (d : List (String × β)) :
    (ks.foldl (fun m k => aerase m k) d).length ≤ d.length := by
  induction ks generalizing d with
  | nil => simp
  | cons k ks ih =>
      simpa using le_trans (ih (aerase d k)) (aerase_length_le d k)

theorem mem_foldl_aerase_of_not_mem {β : Type} {ks : List String}
    {d : List (String × β)} {x : String × β} (hx : x ∈ d) (hk : x.1 ∉ ks) :
    x ∈ ks.foldl (fun m k => aerase m k) d := by
  induction ks generalizing d with
  | nil => simpa using hx
  | cons k ks ih =>
      simp only [List.mem_cons] at hk
      push_neg at hk
      simpa using ih (mem_aerase_of_ne hk.1 hx) hk.2

theorem alookup_foldl_aerase_of_not_mem {β : Type} {ks : List String}
    {d : List (String × β)} {k : String} (hk : k ∉ ks) :
    alookup (ks.foldl (fun m k2 => aerase m k2) d) k = alookup d k := by
  induction ks generalizing d with
  | nil => simp
  | cons k2 ks ih =>
      simp only [List.mem_cons] at hk
      push_neg at hk
      rw [show (k2 :: ks).foldl (fun m k3 => aerase m k3) d
            = ks.foldl (fun m k3 => aerase m k3) (aerase d k2) from rfl,
          ih hk.2, alookup_aerase_ne hk.1]

theorem nodup_akeys_foldl_aerase {β : Type} {ks : List String}
    {d : List (String × β)} (h : (akeys d).Nodup) :
    (akeys (ks.foldl (fun m k => aerase m k) d)).Nodup := by
  induction ks generalizing d with
  | nil => simpa using h
  | cons k ks ih => simpa using ih (nodup_akeys_aerase k h)

theorem akeys_foldl_aerase_sublist {β : Type} (ks : List String)
    (d : List (String × β)) :
    (akeys (ks.foldl (fun m k => aerase m k) d)).Sublist (akeys d) := by
  induction ks generalizing d with
  | nil => simp
  | cons k ks ih =>
      simpa using (ih (aerase d k)).trans (akeys_aerase_sublist d k)

theorem alookup_foldl_aerase_of_mem {β : Type} {ks : List String}
    {d : List (String × β)} {k : String} (hn : (akeys d).Nodup)
    (hk : k ∈ ks) : alookup (ks.foldl (fun m k2 => aerase m k2) d) k
      = Option.none := by
  induction ks generalizing d with
  | nil => simp at hk
  | cons k2 ks ih =>
      by_cases he : k = k2
      · subst he
        rw [show (k :: ks).foldl (fun m k3 => aerase m k3) d
              = ks.foldl (fun m k3 => aerase m k3) (aerase d k) from rfl,
          alookup_eq_none_iff]
        intro hmem
        exact (alookup_eq_none_iff.mp (alookup_aerase_self hn))
          ((akeys_foldl_aerase_sublist ks (aerase d k)).subset hmem)
      · have hk2 : k ∈ ks := by
          rcases List.mem_cons.mp hk with h | h
          · exact absurd h he
          · exact h
        simpa using ih (nodup_akeys_aerase k2 hn) hk2

theorem alookup_mem {β : Type} {d : List (String × β)} {k : String} {v : β}
    (h : alookup d k = some v) : (k, v) ∈ d := by
  induction d with
  | nil => simp [alookup] at h
  | cons hd tl ih =>
      obtain ⟨a, w⟩ := hd
      by_cases ha : a = k
      · subst ha
        have h2 : w = v := by simpa [alookup] using h
        subst h2
        simp
      · simp only [alookup, if_neg ha] at h
        exact List.mem_cons_of_mem _ (ih h)

/-! Facts about CacheManager.set needed by several claims. -/

theorem set_memory_eq (conn : RedisConn) (st : CacheState) (k : String)
    (v : PyVal) (ttl now : Nat) :
    (CacheManager.set conn st k v ttl now).2.memory
      = (if (aupdate st.memory k (v, now + ttl)).length > 1000 then
           CacheManager.evictOldest (aupdate st.memory k (v, now + ttl))
         else aupdate st.memory k (v, now + ttl)) := by
  cases conn <;> rfl

theorem set_memory_no_evict {st : CacheState} (conn : RedisConn) {k : String}
    {v : PyVal} {ttl now : Nat} (h : st.memory.length < 1000) :
    (CacheManager.set conn st k v ttl now).2.memory
      = aupdate st.memory k (v, now + ttl) := by
  rw [set_memory_eq]
  have hle := aupdate_length_le st.memory k (v, now + ttl)
  have : ¬ (aupdate st.memory k (v, now + ttl)).length > 1000 := by omega
  simp [this]

theorem set_stats_eq (conn : RedisConn) (st : CacheState) (k : String)
    (v : PyVal) (ttl now : Nat) :
    (CacheManager.set conn st k v ttl now).2.hits = st.hits
    ∧ (CacheManager.set conn st k v ttl now).2.misses = st.misses
    ∧ (CacheManager.set conn st k v ttl now).2.redisHits = st.redisHits
    ∧ (CacheManager.set conn st k v ttl now).2.memoryHits = st.memoryHits := by
  cases conn <;> exact ⟨rfl, rfl, rfl, rfl⟩

theorem set_redis_ok (st : CacheState) (k : String) (v : PyVal)
    (ttl now : Nat) :
    (CacheManager.set .ok st k v ttl now).2.redis
      = aupdate st.redis (makeKey k) (serializeValue v, now + ttl) := rfl

/-! C1: Set followed by Get within the TTL. -/

/-- Claim C1 as stated: for every key, every value and every positive ttl,
Set(k, v, ttl) then Get(k) before expiry returns v — through whichever tier
serves the hit. -/
def claimC1 : Prop :=
  ∀ (conn : RedisConn) (st : CacheState) (k : String) (v : PyVal)
    (ttl now : Nat), 0 < ttl →
    (CacheManager.get conn (CacheManager.set conn st k v ttl now).2 k now).1 = v

/-- C1 counterexample: with the remote tier serving the hit, a stored tuple
comes back as a list — _serialize_value JSON-encodes a tuple as an array
and _deserialize_value decodes it as a list — so Get does not return the
value that was Set. -/
theorem c1_counterexample : ¬ claimC1 := by
  intro h
  have h2 := h .ok emptyCache "k" (.tuple [.int 1, .int 2]) 5 0 (by decide)
  have h3 : PyVal.list [.int 1, .int 2] = PyVal.tuple [.int 1, .int 2] := h2
  cases h3

/-- C1 amended: Set(k, v, ttl) then Get(k) before expiry returns v as a
counted hit, provided the insertion did not overflow the local tier
(no eviction was triggered); the local tier returns the stored object
itself, and the remote tier returns the serialize/deserialize round-trip
of v, which equals v exactly when v's JSON image decodes back to v. -/
theorem c1_set_get_roundtrip :
    ∀ (connS connG : RedisConn) (st : CacheState) (k : String) (v : PyVal)
      (ttl now now2 : Nat),
      st.memory.length < 1000 → now2 < now + ttl →
      ((connG = .absent ∨ connG = .failing) →
        CacheManager.get connG (CacheManager.set connS st k v ttl now).2 k now2
          = (v, { (CacheManager.set connS st k v ttl now).2 with
                  hits := (CacheManager.set connS st k v ttl now).2.hits + 1,
                  memoryHits :=
                    (CacheManager.set connS st k v ttl now).2.memoryHits + 1 }))
      ∧ (connS = .ok → connG = .ok →
          deserializeValue (serializeValue v) = v →
        CacheManager.get connG (CacheManager.set connS st k v ttl now).2 k now2
          = (v, { (CacheManager.set connS st k v ttl now).2 with
                  hits := (CacheManager.set connS st k v ttl now).2.hits + 1,
                  redisHits :=
                    (CacheManager.set connS st k v ttl now).2.redisHits + 1 })) := by
  intro connS connG st k v ttl now now2 hlen hvalid
  have hmem := @set_memory_no_evict st connS k v ttl now hlen
  constructor
  · intro hG
    have hlook : alookup (CacheManager.set connS st k v ttl now).2.memory k
        = some (v, now + ttl) := by
      rw [hmem, alookup_aupdate_self]
    rcases hG with hG | hG <;> subst hG <;>
      simp [CacheManager.get, redisGET, memoryLookup, hlook, hvalid]
  · intro hS hG hround
    subst hS
    subst hG
    have hlook : alookup (CacheManager.set .ok st k v ttl now).2.redis (makeKey k)
        = some (serializeValue v, now + ttl) := by
      rw [set_redis_ok, alookup_aupdate_self]
    simp [CacheManager.get, redisGET, hlook, hvalid, hround]

/-- Witness for the amended C1 at a concrete input: a string survives the
round trip through both tiers. -/
theorem c1_set_get_roundtrip_witness :
    (CacheManager.get .ok
        (CacheManager.set .ok emptyCache "k" (PyVal.str "a") 10 0).2 "k" 3).1
      = PyVal.str "a"
    ∧ (CacheManager.get .absent
        (CacheManager.set .absent emptyCache "k" (PyVal.str "a") 10 0).2 "k" 3).1
      = PyVal.str "a" := by
  constructor
  · have h := (c1_set_get_roundtrip .ok .ok emptyCache "k" (PyVal.str "a")
      10 0 3 (by decide) (by decide)).2 rfl rfl rfl
    rw [h]
  · have h := (c1_set_get_roundtrip .absent .absent emptyCache "k"
      (PyVal.str "a") 10 0 3 (by decide) (by decide)).1 (Or.inl rfl)
    rw [h]

/-! C3: remote-tier faults are swallowed. -/

/-- C3: every operation behaves identically whether the Redis client raises
on each call or is absent altogether (the except-blocks swallow the fault
and fall back to the local tier); a remote error during Get acts as a
remote miss, and a live local entry is still served under a remote fault. -/
theorem c3_remote_faults_swallowed :
    ∀ (st : CacheState) (k pat : String) (v : PyVal) (ttl now : Nat),
      (CacheManager.get .failing st k now = CacheManager.get .absent st k now
        ∧ CacheManager.set .failing st k v ttl now
            = CacheManager.set .absent st k v ttl now
        ∧ CacheManager.delete .failing st k = CacheManager.delete .absent st k
        ∧ CacheManager.invalidatePattern .failing st pat now
            = CacheManager.invalidatePattern .absent st pat now)
      ∧ (alookup st.redis (makeKey k) = Option.none →
          CacheManager.get .ok st k now = CacheManager.get .absent st k now)
      ∧ (∀ (v2 : PyVal) (exp : Nat), alookup st.memory k = some (v2, exp) →
          now < exp → (CacheManager.get .failing st k now).1 = v2) := by
  intro st k pat v ttl now
  refine ⟨⟨rfl, rfl, rfl, rfl⟩, ?_, ?_⟩
  · intro h
    simp [CacheManager.get, redisGET, h]
  · intro v2 exp h hlive
    simp [CacheManager.get, redisGET, memoryLookup, h, hlive]

/-- Witness for C3 at a concrete input: with a live local entry, a failing
remote tier still serves the value. -/
theorem c3_remote_faults_swallowed_witness :
    (CacheManager.get .failing
        (CacheManager.set .failing emptyCache "k" (PyVal.int 7) 10 0).2 "k" 3).1
      = PyVal.int 7 := by
  exact (c3_remote_faults_swallowed
    (CacheManager.set .failing emptyCache "k" (PyVal.int 7) 10 0).2
    "k" "p" (PyVal.none) 1 3).2.2 (PyVal.int 7) 10 rfl (by decide)

/-! C4: expired local entries on Get. -/

/-- Claim C4 as stated: whenever the local entry for k has expired, Get(k)
returns not-found, counts a miss, and purges the entry — regardless of the
remote tier. -/
def claimC4 : Prop :=
  ∀ (conn : RedisConn) (st : CacheState) (k : String) (v : PyVal)
    (exp now : Nat),
    alookup st.memory k = some (v, exp) → exp ≤ now →
    (CacheManager.get conn st k now).1 = PyVal.none
    ∧ (CacheManager.get conn st k now).2.misses = st.misses + 1
    ∧ alookup (CacheManager.get conn st k now).2.memory k = Option.none

/-- A reachable stale state: Set(k, old, 100) with Redis up, then
Set(k, new, 1) while Redis is down, leaves the remote tier holding old
until t = 100 while the local entry expires at t = 1. -/
def c4StaleState : CacheState :=
  (CacheManager.set .failing
    (CacheManager.set .ok emptyCache "k" (.str "old") 100 0).2
    "k" (.str "new") 1 0).2

/-- C4 counterexample: at t = 50 the local entry (expiry 1) is expired, yet
Get returns the remote tier's stale value as a hit — not not-found — and
the expired local entry is neither counted as a miss nor purged. -/
theorem c4_counterexample : ¬ claimC4 := by
  intro h
  have h2 := h .ok c4StaleState "k" (.str "new") 1 50 rfl (by decide)
  have h3 : PyVal.str "old" = PyVal.none := h2.1
  cases h3

/-- C4 amended: when the remote tier yields no hit (absent, erroring, or
missing/expired key), Get on an expired local entry returns not-found,
increments the miss counter, and deletes the entry from the local tier. -/
theorem c4_expired_purged :
    ∀ (conn : RedisConn) (st : CacheState) (k : String) (v : PyVal)
      (exp now : Nat),
      alookup st.memory k = some (v, exp) → exp ≤ now →
      (∀ sv : SerialVal,
        redisGET conn st.redis (makeKey k) now ≠ Except.ok (some sv)) →
      CacheManager.get conn st k now
        = (PyVal.none,
           { st with memory := aerase st.memory k, misses := st.misses + 1 }) := by
  intro conn st k v exp now hmem hexp hnohit
  have hstale : ¬ now < exp := by omega
  cases conn with
  | absent => simp [CacheManager.get, memoryLookup, hmem, hstale]
  | failing => simp [CacheManager.get, redisGET, memoryLookup, hmem, hstale]
  | ok =>
      have hred : redisGET .ok st.redis (makeKey k) now = .ok Option.none := by
        cases hr : alookup st.redis (makeKey k) with
        | none => simp [redisGET, hr]
        | some p =>
            obtain ⟨sv, e⟩ := p
            by_cases hl : now < e
            · exact absurd (by simp [redisGET, hr, hl] : redisGET .ok st.redis
                (makeKey k) now = .ok (some sv)) (hnohit sv)
            · simp [redisGET, hr, hl]
      simp [CacheManager.get, hred, memoryLookup, hmem, hstale]

/-- Witness for the amended C4 at a concrete input. -/
theorem c4_expired_purged_witness :
    (CacheManager.get .absent
        (CacheManager.set .absent emptyCache "k" (PyVal.str "x") 1 0).2 "k" 5).1
      = PyVal.none := by
  have h := c4_expired_purged .absent
    (CacheManager.set .absent emptyCache "k" (PyVal.str "x") 1 0).2
    "k" (PyVal.str "x") 1 5 rfl (by decide)
    (by intro sv h; exact Option.noConfusion (Except.ok.inj h))
  rw [h]

/-! C10: a cached None is indistinguishable from a miss. -/

theorem foldl_aerase_entries {β : Type} (es : List (String × β))
    (d : List (String × β)) :
    es.foldl (fun m e => aerase m e.1) d
      = (es.map Prod.fst).foldl (fun m k => aerase m k) d := by
  induction es generalizing d with
  | nil => rfl
  | cons e es ih => simpa using ih (aerase d e.1)

theorem nodup_memory_set (conn : RedisConn) (st : CacheState) (k : String)
    (v : PyVal) (ttl now : Nat) (hn : (akeys st.memory).Nodup) :
    (akeys (CacheManager.set conn st k v ttl now).2.memory).Nodup := by
  rw [set_memory_eq]
  have h1 : (akeys (aupdate st.memory k (v, now + ttl))).Nodup :=
    nodup_akeys_aupdate _ hn
  by_cases hbig : (aupdate st.memory k (v, now + ttl)).length > 1000
  · rw [if_pos hbig]
    rw [CacheManager.evictOldest, foldl_aerase_entries]
    exact nodup_akeys_foldl_aerase h1
  · rwa [if_neg hbig]

theorem get_memory_cases (conn : RedisConn) (st : CacheState) (k : String)
    (now : Nat) :
    (CacheManager.get conn st k now).2.memory = st.memory
    ∨ (CacheManager.get conn st k now).2.memory = aerase st.memory k := by
  have hml : (memoryLookup st k now).2.memory = st.memory
      ∨ (memoryLookup st k now).2.memory = aerase st.memory k := by
    unfold memoryLookup
    cases hl : alookup st.memory k with
    | none => simp
    | some p =>
        obtain ⟨v, e⟩ := p
        by_cases hlt : now < e <;> simp [hlt]
  cases conn with
  | absent => exact hml
  | failing => exact hml
  | ok =>
      unfold CacheManager.get
      cases hr : redisGET .ok st.redis (makeKey k) now with
      | ok o =>
          cases o with
          | none => simpa [hr] using hml
          | some sv => simp [hr]
      | error e => simpa [hr] using hml

theorem nodup_memory_get (conn : RedisConn) (st : CacheState) (k : String)
    (now : Nat) (hn : (akeys st.memory).Nodup) :
    (akeys (CacheManager.get conn st k now).2.memory).Nodup := by
  rcases get_memory_cases conn st k now with h | h
  · rwa [h]
  · rw [h]
    exact nodup_akeys_aerase k hn

theorem memoryLookup_none_val {st : CacheState} {k : String} {now : Nat}
    (h : ∀ p : PyVal × Nat, alookup st.memory k = some p → p.1 = PyVal.none) :
    (memoryLookup st k now).1 = PyVal.none := by
  unfold memoryLookup
  cases hl : alookup st.memory k with
  | none => simp
  | some p =>
      obtain ⟨v, e⟩ := p
      have hv := h _ hl
      by_cases hlt : now < e <;> simp [hlt, hv]

theorem get_set_none {conn : RedisConn} {st : CacheState} {k : String}
    {ttl now now2 : Nat} (hn : (akeys st.memory).Nodup) :
    (CacheManager.get conn
        (CacheManager.set conn st k PyVal.none ttl now).2 k now2).1
      = PyVal.none := by
  have hmemnone : ∀ p : PyVal × Nat,
      alookup (CacheManager.set conn st k PyVal.none ttl now).2.memory k
        = some p → p.1 = PyVal.none := by
    intro p hp
    rw [set_memory_eq] at hp
    have hm1 : (akeys (aupdate st.memory k (PyVal.none, now + ttl))).Nodup :=
      nodup_akeys_aupdate _ hn
    by_cases hbig : (aupdate st.memory k (PyVal.none, now + ttl)).length > 1000
    · rw [if_pos hbig] at hp
      have hmemp := alookup_mem hp
      rw [CacheManager.evictOldest, foldl_aerase_entries] at hmemp
      have hin := mem_foldl_aerase hmemp
      have h1 := alookup_of_mem_nodup hm1 hin
      rw [alookup_aupdate_self] at h1
      cases h1
      rfl
    · rw [if_neg hbig, alookup_aupdate_self] at hp
      cases hp
      rfl
  cases conn with
  | absent => exact memoryLookup_none_val hmemnone
  | failing => exact memoryLookup_none_val hmemnone
  | ok =>
      have hred : (CacheManager.set .ok st k PyVal.none ttl now).2.redis
          = aupdate st.redis (makeKey k)
              (serializeValue PyVal.none, now + ttl) := rfl
      by_cases hlt : now2 < now + ttl
      · simp [CacheManager.get, redisGET, hred, alookup_aupdate_self, hlt]
        rfl
      · simp [CacheManager.get, redisGET, hred, alookup_aupdate_self, hlt]
        exact memoryLookup_none_val hmemnone

theorem cachedCall_invokes {conn : RedisConn} {st : CacheState}
    {pfx fn args : String} {f : Unit → PyVal} {ttl2 now : Nat}
    (h : (CacheManager.get conn st (cachedKey pfx fn args) now).1
      = PyVal.none) :
    (cachedCall conn st pfx fn args f ttl2 now).2.2 = true := by
  have hpair : CacheManager.get conn st (cachedKey pfx fn args) now
      = (PyVal.none,
         (CacheManager.get conn st (cachedKey pfx fn args) now).2) := by
    rw [← h]
  rw [cachedCall, hpair]

theorem cachedCall_state_of_miss {conn : RedisConn} {st : CacheState}
    {pfx fn args : String} {f : Unit → PyVal} {ttl2 now : Nat}
    (h : (CacheManager.get conn st (cachedKey pfx fn args) now).1
      = PyVal.none) :
    (cachedCall conn st pfx fn args f ttl2 now).2.1
      = (CacheManager.set conn
          (CacheManager.get conn st (cachedKey pfx fn args) now).2
          (cachedKey pfx fn args) (f ()) ttl2 now).2 := by
  have hpair : CacheManager.get conn st (cachedKey pfx fn args) now
      = (PyVal.none,
         (CacheManager.get conn st (cachedKey pfx fn args) now).2) := by
    rw [← h]
  rw [cachedCall, hpair]

/-- C10: storing None is observationally a miss — Get after Set(k, None)
returns None, the very value Get returns for an absent key — and the
cached(...) decorator, which re-runs the function whenever Get yields
None, therefore re-executes a memoized function that returned None, on the
call after the one that cached it just as on a cold cache. -/
theorem c10_stored_none_is_miss :
    ∀ (conn : RedisConn) (st : CacheState) (k : String) (ttl now now2 : Nat),
      (akeys st.memory).Nodup →
      ((CacheManager.get conn
          (CacheManager.set conn st k PyVal.none ttl now).2 k now2).1
        = PyVal.none)
      ∧ ((CacheManager.get conn emptyCache k now2).1 = PyVal.none)
      ∧ (∀ (pfx fn args : String) (f : Unit → PyVal) (ttl2 : Nat),
          (CacheManager.get conn st (cachedKey pfx fn args) now).1
            = PyVal.none →
          (cachedCall conn st pfx fn args f ttl2 now).2.2 = true)
      ∧ (∀ (pfx fn args : String) (ttl2 now3 : Nat),
          (CacheManager.get conn st (cachedKey pfx fn args) now).1
            = PyVal.none →
          (cachedCall conn
              (cachedCall conn st pfx fn args (fun _ => PyVal.none) ttl2
                now).2.1
              pfx fn args (fun _ => PyVal.none) ttl2 now3).2.2 = true) := by
  intro conn st k ttl now now2 hn
  refine ⟨get_set_none hn, ?_, ?_, ?_⟩
  · cases conn <;> rfl
  · intro pfx fn args f ttl2 h
    exact cachedCall_invokes h
  · intro pfx fn args ttl2 now3 h
    apply cachedCall_invokes
    rw [cachedCall_state_of_miss h]
    exact get_set_none
      (nodup_memory_get conn st (cachedKey pfx fn args) now hn)

/-- Witness for C10 at a concrete input. -/
theorem c10_stored_none_is_miss_witness :
    (CacheManager.get .absent
        (CacheManager.set .absent emptyCache "k" PyVal.none 60 0).2 "k" 1).1
      = PyVal.none := by
  exact (c10_stored_none_is_miss .absent emptyCache "k" 60 0 1 (by simp [emptyCache, akeys])).1

/-! C5: the bounded local tier. -/

instance expiryLeTotal :
    IsTotal (String × PyVal × Nat) (fun a b => a.2.2 ≤ b.2.2) :=
  ⟨fun a b => Nat.le_total a.2.2 b.2.2⟩

instance expiryLeTrans :
    IsTrans (String × PyVal × Nat) (fun a b => a.2.2 ≤ b.2.2) :=
  ⟨fun _ _ _ hab hbc => Nat.le_trans hab hbc⟩

theorem sortByExpiry_sorted (mem : List (String × PyVal × Nat)) :
    (CacheManager.sortByExpiry mem).Sorted (fun a b => a.2.2 ≤ b.2.2) :=
  List.sorted_insertionSort _ mem

theorem sortByExpiry_perm (mem : List (String × PyVal × Nat)) :
    (CacheManager.sortByExpiry mem).Perm mem :=
  List.perm_insertionSort _ mem

theorem evictOldest_length_lt {mem : List (String × PyVal × Nat)}
    (h : mem.length > 0) :
    (CacheManager.evictOldest mem).length < mem.length := by
  cases hs : CacheManager.sortByExpiry mem with
  | nil =>
      have := (sortByExpiry_perm mem).length_eq
      rw [hs] at this
      simp at this
      omega
  | cons e rest =>
      have hemem : e ∈ mem := (sortByExpiry_perm mem).subset (by rw [hs]; simp)
      have hkey : e.1 ∈ akeys mem := by
        obtain ⟨k2, v2, x2⟩ := e
        exact List.mem_map_of_mem Prod.fst hemem
      have hsome := alookup_isSome_of_mem_akeys hkey
      have hlen := aerase_length_of_present hsome
      have : CacheManager.evictOldest mem
          = ((rest.take 99).map Prod.fst).foldl (fun m k => aerase m k)
              (aerase mem e.1) := by
        rw [CacheManager.evictOldest, hs]
        rw [show (e :: rest).take 100 = e :: rest.take 99 from rfl]
        rw [show (e :: rest.take 99).foldl (fun m e2 => aerase m e2.1) mem
              = (rest.take 99).foldl (fun m e2 => aerase m e2.1)
                  (aerase mem e.1) from rfl]
        rw [foldl_aerase_entries]
      rw [this]
      have := foldl_aerase_length_le ((rest.take 99).map Prod.fst)
        (aerase mem e.1)
      omega

theorem set_memory_length_le (conn : RedisConn) (st : CacheState)
    (k : String) (v : PyVal) (ttl now : Nat)
    (h : st.memory.length ≤ 1000) :
    (CacheManager.set conn st k v ttl now).2.memory.length ≤ 1000 := by
  rw [set_memory_eq]
  have hle := aupdate_length_le st.memory k (v, now + ttl)
  by_cases hbig : (aupdate st.memory k (v, now + ttl)).length > 1000
  · rw [if_pos hbig]
    have := @evictOldest_length_lt
      (aupdate st.memory k (v, now + ttl)) (by omega)
    omega
  · rw [if_neg hbig]
    omega

/-- A sequence of Set operations (connectivity, key, value, ttl, now),
applied in order — the load pattern of the bounded-eviction test. -/
def applySets (ops : List (RedisConn × String × PyVal × Nat × Nat))
    (st : CacheState) : CacheState :=
  ops.foldl
    (fun s o => (CacheManager.set o.1 s o.2.1 o.2.2.1 o.2.2.2.1 o.2.2.2.2).2)
    st

theorem applySets_length_le (ops : List (RedisConn × String × PyVal × Nat × Nat))
    (st : CacheState) (h : st.memory.length ≤ 1000) :
    (applySets ops st).memory.length ≤ 1000 := by
  induction ops generalizing st with
  | nil => simpa [applySets] using h
  | cons o ops ih =>
      exact ih _ (set_memory_length_le o.1 st o.2.1 o.2.2.1 o.2.2.2.1 o.2.2.2.2 h)

theorem take_drop_expiry (mem : List (String × PyVal × Nat))
    {a b : String × PyVal × Nat}
    (ha : a ∈ (CacheManager.sortByExpiry mem).take 100)
    (hb : b ∈ (CacheManager.sortByExpiry mem).drop 100) : a.2.2 ≤ b.2.2 := by
  have hs := sortByExpiry_sorted mem
  rw [List.Sorted, ← List.take_append_drop 100 (CacheManager.sortByExpiry mem),
    List.pairwise_append] at hs
  exact hs.2.2 a ha b hb

theorem evict_keeps_newest {mem : List (String × PyVal × Nat)}
    (hn : (akeys mem).Nodup) {a b : String × PyVal × Nat}
    (ha : a ∈ mem) (hev : a ∉ CacheManager.evictOldest mem)
    (hb : b ∈ CacheManager.evictOldest mem) : a.2.2 ≤ b.2.2 := by
  have hbmem : b ∈ mem := by
    rw [CacheManager.evictOldest, foldl_aerase_entries] at hb
    exact mem_foldl_aerase hb
  have hbks : b.1 ∉ ((CacheManager.sortByExpiry mem).take 100).map Prod.fst := by
    intro hmem
    have h1 : alookup (CacheManager.evictOldest mem) b.1 = Option.none := by
      rw [CacheManager.evictOldest, foldl_aerase_entries]
      exact alookup_foldl_aerase_of_mem hn hmem
    have h2 : b.1 ∈ akeys (CacheManager.evictOldest mem) := by
      obtain ⟨k2, v2, x2⟩ := b
      exact List.mem_map_of_mem Prod.fst hb
    have h3 := alookup_isSome_of_mem_akeys h2
    rw [h1] at h3
    exact absurd h3 (by simp)
  have haks : a.1 ∈ ((CacheManager.sortByExpiry mem).take 100).map Prod.fst := by
    by_contra hng
    exact hev (by
      rw [CacheManager.evictOldest, foldl_aerase_entries]
      exact mem_foldl_aerase_of_not_mem ha hng)
  obtain ⟨e, he100, hekey⟩ := List.mem_map.mp haks
  have hemem : e ∈ mem := (sortByExpiry_perm mem).subset (List.mem_of_mem_take he100)
  have hea : e = a := by
    have h1 : alookup mem a.1 = some a.2 := by
      refine alookup_of_mem_nodup hn ?_
      obtain ⟨k2, v2, x2⟩ := a
      exact ha
    have h2 : alookup mem a.1 = some e.2 := by
      rw [← hekey]
      refine alookup_of_mem_nodup hn ?_
      obtain ⟨k2, v2, x2⟩ := e
      exact hemem
    rw [h1] at h2
    have h3 : e.2 = a.2 := (Option.some.inj h2).symm
    obtain ⟨k2, v2, x2⟩ := e
    obtain ⟨k3, v3, x3⟩ := a
    simp only at hekey h3
    rw [hekey, h3]
  subst hea
  have hbsorted : b ∈ CacheManager.sortByExpiry mem :=
    (sortByExpiry_perm mem).symm.subset hbmem
  have hbdrop : b ∈ (CacheManager.sortByExpiry mem).drop 100 := by
    rw [← List.take_append_drop 100 (CacheManager.sortByExpiry mem),
      List.mem_append] at hbsorted
    rcases hbsorted with h | h
    · exact absurd (List.mem_map_of_mem Prod.fst h) hbks
    · exact h
  exact take_drop_expiry mem he100 hbdrop

/-- C5: (i) if the local tier held at most 1000 entries, it still does after
any Set — the eviction drops the oldest-by-expiry tenth once an insertion
pushes it past 1000; (ii) any sequence of Sets starting from a fresh cache
(in particular 1200 distinct keys) leaves at most 1000 entries; (iii) every
entry of the evicted 10 percent expires no later than every retained
entry; (iv) hence a dropped entry never out-expires a surviving one. -/
theorem c5_bounded_eviction :
    (∀ (conn : RedisConn) (st : CacheState) (k : String) (v : PyVal)
       (ttl now : Nat), st.memory.length ≤ 1000 →
       (CacheManager.set conn st k v ttl now).2.memory.length ≤ 1000)
    ∧ (∀ ops : List (RedisConn × String × PyVal × Nat × Nat),
       (applySets ops emptyCache).memory.length ≤ 1000)
    ∧ (∀ (mem : List (String × PyVal × Nat)) (a b : String × PyVal × Nat),
       a ∈ (CacheManager.sortByExpiry mem).take 100 →
       b ∈ (CacheManager.sortByExpiry mem).drop 100 → a.2.2 ≤ b.2.2)
    ∧ (∀ mem : List (String × PyVal × Nat), (akeys mem).Nodup →
       ∀ a b : String × PyVal × Nat, a ∈ mem →
       a ∉ CacheManager.evictOldest mem → b ∈ CacheManager.evictOldest mem →
       a.2.2 ≤ b.2.2) := by
  refine ⟨set_memory_length_le, ?_, ?_, ?_⟩
  · intro ops
    exact applySets_length_le ops emptyCache (by simp [emptyCache])
  · intro mem a b ha hb
    exact take_drop_expiry mem ha hb
  · intro mem hn a b ha hev hb
    exact evict_keeps_newest hn ha hev hb

/-- Witness for C5 at a concrete input. -/
theorem c5_bounded_eviction_witness :
    (CacheManager.set .absent emptyCache "k" (PyVal.int 1) 5 0).2.memory.length
      ≤ 1000 := by
  exact c5_bounded_eviction.1 .absent emptyCache "k" (PyVal.int 1) 5 0 (by decide)

/-! C6: pattern invalidation. -/

/-- The spec's invalidation scenario: Set books:1, books:2, other:1 (ttl
100 at t = 0) on a cache with the given Redis connectivity. -/
def booksScenario (conn : RedisConn) : CacheState :=
  (CacheManager.set conn
    (CacheManager.set conn
      (CacheManager.set conn emptyCache "books:1" (.str "b1") 100 0).2
      "books:2" (.str "b2") 100 0).2
    "other:1" (.str "o1") 100 0).2

/-- Claim C6 as stated: InvalidatePattern with the literal prefix removes
every matching key from BOTH tiers and returns the number of keys removed
(2 in the books scenario, 0 on repeat), whatever the remote connectivity. -/
def claimC6 : Prop :=
  ∀ conn : RedisConn,
    (CacheManager.invalidatePattern conn (booksScenario conn) "books:" 0).1 = 2
    ∧ alookup (CacheManager.invalidatePattern conn (booksScenario conn)
        "books:" 0).2.memory "books:1" = Option.none
    ∧ alookup (CacheManager.invalidatePattern conn (booksScenario conn)
        "books:" 0).2.memory "books:2" = Option.none
    ∧ (alookup (CacheManager.invalidatePattern conn (booksScenario conn)
        "books:" 0).2.memory "other:1").isSome
    ∧ (∀ sv : SerialVal,
        redisGET .ok (CacheManager.invalidatePattern conn (booksScenario conn)
          "books:" 0).2.redis (makeKey "books:1") 0 ≠ Except.ok (some sv))
    ∧ (∀ sv : SerialVal,
        redisGET .ok (CacheManager.invalidatePattern conn (booksScenario conn)
          "books:" 0).2.redis (makeKey "books:2") 0 ≠ Except.ok (some sv))
    ∧ (CacheManager.invalidatePattern conn
        (CacheManager.invalidatePattern conn (booksScenario conn)
          "books:" 0).2 "books:" 0).1 = 0

/-- C6 counterexample: with Redis up, invalidate_pattern with the starless
prefix books: asks Redis KEYS for the literal key library_cache:books: —
which matches nothing — so the remote tier keeps serving books:1; the
matching keys are not removed from both tiers. -/
theorem c6_counterexample : ¬ claimC6 := by
  intro h
  exact (h .ok).2.2.2.2.1 (serializeValue (PyVal.str "b1")) rfl

theorem invalidate_count_fold {β : Type} (ks : List String) (c : Nat)
    (d : List (String × β)) :
    ks.foldl (fun acc k => (acc.1 + 1, aerase acc.2 k)) (c, d)
      = (c + ks.length, ks.foldl (fun m k => aerase m k) d) := by
  induction ks generalizing c d with
  | nil => simp
  | cons k ks ih =>
      rw [show (k :: ks).foldl (fun acc k2 => (acc.1 + 1, aerase acc.2 k2)) (c, d)
            = ks.foldl (fun acc k2 => (acc.1 + 1, aerase acc.2 k2))
                (c + 1, aerase d k) from rfl, ih]
      simp
      omega

/-- The keys the local scan of invalidate_pattern removes. -/
def matchingKeys (st : CacheState) (pat : String) : List String :=
  (akeys st.memory).filter (fun k => strStarts (stripStars pat) k)

/-- The local tier after invalidate_pattern's scan-and-pop loop. -/
def localPurge (st : CacheState) (pat : String) :
    List (String × PyVal × Nat) :=
  (matchingKeys st pat).foldl (fun m k => aerase m k) st.memory

theorem invalidate_absent_spec (st : CacheState) (pat : String) (now : Nat) :
    CacheManager.invalidatePattern .absent st pat now
      = ((matchingKeys st pat).length,
         { st with memory := localPurge st pat }) := by
  rw [CacheManager.invalidatePattern]
  rw [invalidate_count_fold]
  simp [matchingKeys, localPurge]

/-- C6 amended: invalidate_pattern always removes exactly the local keys
that start with the star-stripped pattern and adds one to the count per
local key removed; the books scenario returns 2 then 0 and a zero-match
call is a no-op returning 0.  Removing the remote copies requires the
trailing-star pattern (as the api.py wrapper invalidate_cache passes it),
and the returned count then sums both tiers, double-counting keys present
in both: the books scenario returns 4, not 2, though both tiers are
cleared. -/
theorem c6_invalidate_scan :
    (∀ (st : CacheState) (pat : String) (now : Nat),
      (CacheManager.invalidatePattern .absent st pat now).1
        = (matchingKeys st pat).length
      ∧ (CacheManager.invalidatePattern .absent st pat now).2.redis = st.redis
      ∧ (∀ k : String, (akeys st.memory).Nodup →
          strStarts (stripStars pat) k = true →
          alookup (CacheManager.invalidatePattern .absent st pat now).2.memory k
            = Option.none)
      ∧ (∀ k : String, strStarts (stripStars pat) k = false →
          alookup (CacheManager.invalidatePattern .absent st pat now).2.memory k
            = alookup st.memory k))
    ∧ ((CacheManager.invalidatePattern .absent (booksScenario .absent)
          "books:" 0).1 = 2
       ∧ (CacheManager.invalidatePattern .absent
           (CacheManager.invalidatePattern .absent (booksScenario .absent)
             "books:" 0).2 "books:" 0).1 = 0)
    ∧ (∀ (st : CacheState) (pat : String) (now : Nat),
        (matchingKeys st pat).length = 0 →
        CacheManager.invalidatePattern .absent st pat now = (0, st))
    ∧ ((invalidateCache .ok (booksScenario .ok) "books:" 0).1 = 4
       ∧ alookup (invalidateCache .ok (booksScenario .ok)
           "books:" 0).2.memory "books:1" = Option.none
       ∧ (∀ sv : SerialVal,
           redisGET .ok (invalidateCache .ok (booksScenario .ok)
             "books:" 0).2.redis (makeKey "books:1") 0
             ≠ Except.ok (some sv))) := by
  refine ⟨?_, ⟨by decide, by decide⟩, ?_, ⟨by decide, rfl, ?_⟩⟩
  · intro st pat now
    rw [invalidate_absent_spec]
    refine ⟨rfl, rfl, ?_, ?_⟩
    · intro k hn hmatch
      simp only [localPurge]
      by_cases hk : k ∈ akeys st.memory
      · exact alookup_foldl_aerase_of_mem hn
          (by simpa [matchingKeys, List.mem_filter] using ⟨hk, hmatch⟩)
      · have hnone := alookup_eq_none_iff.mpr hk
        by_cases hin : k ∈ matchingKeys st pat
        · exact absurd (List.mem_filter.mp
            (by simpa [matchingKeys] using hin)).1 hk
        · rw [alookup_foldl_aerase_of_not_mem hin]
          exact hnone
    · intro k hmatch
      simp only [localPurge]
      have hnot : k ∉ matchingKeys st pat := by
        intro hin
        have h2 := (List.mem_filter.mp (by simpa [matchingKeys] using hin)).2
        have h3 : strStarts (stripStars pat) k = true := h2
        rw [hmatch] at h3
        exact Bool.noConfusion h3
      exact alookup_foldl_aerase_of_not_mem hnot
  · intro st pat now h
    rw [invalidate_absent_spec]
    have hemp : matchingKeys st pat = [] := List.length_eq_zero.mp h
    simp only [localPurge, hemp]
    rfl
  · intro sv h
    exact Option.noConfusion (Except.ok.inj h)

/-- Witness for the amended C6 at a concrete input. -/
theorem c6_invalidate_scan_witness :
    alookup (CacheManager.invalidatePattern .absent (booksScenario .absent)
        "books:" 0).2.memory "books:1" = Option.none := by
  exact (c6_invalidate_scan.1 (booksScenario .absent) "books:" 0).2.2.1
    "books:1" (by decide) (by decide)

/-! C7: the content fingerprint.  First, the code-point order on strings is
a total order — the facts sort_keys relies on. -/

theorem char_toNat_injective {a b : Char} (h : a.toNat = b.toNat) : a = b := by
  rw [← Char.ofNat_toNat a, ← Char.ofNat_toNat b, h]

theorem charsLtb_irrefl : ∀ x : List Char, charsLtb x x = false := by
  intro x
  induction x with
  | nil => rfl
  | cons a as ih => simp [charsLtb, ih]

theorem charsLtb_trans : ∀ {x y z : List Char}, charsLtb x y = true →
    charsLtb y z = true → charsLtb x z = true := by
  intro x
  induction x with
  | nil =>
      intro y z hxy hyz
      cases y with
      | nil => simp [charsLtb] at hxy
      | cons b bs =>
          cases z with
          | nil => simp [charsLtb] at hyz
          | cons c cs => rfl
  | cons a as ih =>
      intro y z hxy hyz
      cases y with
      | nil => simp [charsLtb] at hxy
      | cons b bs =>
          cases z with
          | nil => simp [charsLtb] at hyz
          | cons c cs =>
              simp only [charsLtb] at hxy hyz ⊢
              by_cases hab : a.toNat < b.toNat
              · by_cases hbc : b.toNat < c.toNat
                · simp [Nat.lt_trans hab hbc]
                · simp only [if_pos hab] at hxy
                  by_cases hcb : c.toNat < b.toNat
                  · simp [hbc, hcb] at hyz
                  · have : b.toNat = c.toNat := by omega
                    simp [show a.toNat < c.toNat by omega]
              · by_cases hba : b.toNat < a.toNat
                · simp [hab, hba] at hxy
                · have hab2 : a.toNat = b.toNat := by omega
                  simp only [if_neg hab, if_neg hba] at hxy
                  by_cases hbc : b.toNat < c.toNat
                  · simp [show a.toNat < c.toNat by omega]
                  · by_cases hcb : c.toNat < b.toNat
                    · simp [hbc, hcb] at hyz
                    · have hbc2 : b.toNat = c.toNat := by omega
                      simp only [if_neg hbc, if_neg hcb] at hyz
                      simp [show ¬ a.toNat < c.toNat by omega,
                        show ¬ c.toNat < a.toNat by omega, ih hxy hyz]

theorem charsLtb_both_false_eq : ∀ {x y : List Char},
    charsLtb x y = false → charsLtb y x = false → x = y := by
  intro x
  induction x with
  | nil =>
      intro y hxy _
      cases y with
      | nil => rfl
      | cons b bs => simp [charsLtb] at hxy
  | cons a as ih =>
      intro y hxy hyx
      cases y with
      | nil => simp [charsLtb] at hyx
      | cons b bs =>
          simp only [charsLtb] at hxy hyx
          by_cases hab : a.toNat < b.toNat
          · simp [hab] at hxy
          · by_cases hba : b.toNat < a.toNat
            · simp [hba, hab] at hyx
            · have : a = b := char_toNat_injective (by omega)
              subst this
              simp only [if_neg hab] at hxy hyx
              rw [ih hxy hyx]

theorem strLeb_total (a b : String) : strLeb a b = true ∨ strLeb b a = true := by
  by_cases h : charsLtb b.data a.data = true
  · refine Or.inr ?_
    simp only [strLeb, strLtb, Bool.not_eq_true']
    cases h2 : charsLtb a.data b.data
    · rfl
    · have h3 := charsLtb_trans h h2
      rw [charsLtb_irrefl] at h3
      exact Bool.noConfusion h3
  · refine Or.inl ?_
    simp only [strLeb, strLtb, Bool.not_eq_true']
    cases h2 : charsLtb b.data a.data
    · rfl
    · exact absurd h2 h

theorem strLeb_trans {a b c : String} (hab : strLeb a b = true)
    (hbc : strLeb b c = true) : strLeb a c = true := by
  simp only [strLeb, strLtb, Bool.not_eq_true'] at hab hbc ⊢
  by_contra hac
  have hca : charsLtb c.data a.data = true := by
    cases h : charsLtb c.data a.data
    · exact absurd h hac
    · rfl
  by_cases h1 : charsLtb a.data b.data = true
  · by_cases h2 : charsLtb b.data c.data = true
    · have := charsLtb_trans (charsLtb_trans hca h1) h2
      rw [charsLtb_irrefl] at this
      exact Bool.noConfusion this
    · have hcb : c.data = b.data := charsLtb_both_false_eq hbc
        (by cases h : charsLtb b.data c.data
            · rfl
            · exact absurd h h2)
      rw [hcb] at hca
      have := charsLtb_trans hca h1
      rw [charsLtb_irrefl] at this
      exact Bool.noConfusion this
  · have hba : b.data = a.data := charsLtb_both_false_eq hab
      (by cases h : charsLtb a.data b.data
          · rfl
          · exact absurd h h1)
    rw [← hba] at hca
    by_cases h2 : charsLtb b.data c.data = true
    · have := charsLtb_trans hca h2
      rw [charsLtb_irrefl] at this
      exact Bool.noConfusion this
    · have hcb : c.data = b.data := charsLtb_both_false_eq hbc
        (by cases h : charsLtb b.data c.data
            · rfl
            · exact absurd h h2)
      rw [hcb] at hca
      rw [charsLtb_irrefl] at hca
      exact Bool.noConfusion hca

theorem strLeb_antisymm {a b : String} (hab : strLeb a b = true)
    (hba : strLeb b a = true) : a = b := by
  simp only [strLeb, strLtb, Bool.not_eq_true'] at hab hba
  have h2 := charsLtb_both_false_eq hba hab
  cases a with
  | mk da =>
      cases b with
      | mk db => exact congrArg String.mk h2

instance keyLebTotal :
    IsTotal (String × String) (fun a b => strLeb a.1 b.1 = true) :=
  ⟨fun a b => strLeb_total a.1 b.1⟩

instance keyLebTrans :
    IsTrans (String × String) (fun a b => strLeb a.1 b.1 = true) :=
  ⟨fun _ _ _ hab hbc => strLeb_trans hab hbc⟩

/-- Two sorted pair lists with the same duplicate-free multiset of keyed
entries are equal: sorting by key is deterministic on dicts. -/
theorem sorted_perm_nodup_keys_eq : ∀ {l1 l2 : List (String × String)},
    l1.Pairwise (fun a b => strLeb a.1 b.1 = true) →
    l2.Pairwise (fun a b => strLeb a.1 b.1 = true) →
    (l1.map Prod.fst).Nodup → l1.Perm l2 → l1 = l2 := by
  intro l1
  induction l1 with
  | nil =>
      intro l2 _ _ _ hperm
      exact List.Perm.nil_eq hperm
  | cons a t1 ih =>
      intro l2 hs1 hs2 hn1 hperm
      cases l2 with
      | nil => exact absurd hperm.symm (by simp)
      | cons b t2 =>
          have hab : a = b := by
            have hainl2 : a ∈ b :: t2 := hperm.subset (by simp)
            have hbinl1 : b ∈ a :: t1 := hperm.symm.subset (by simp)
            rcases List.mem_cons.mp hainl2 with h | hat2
            · exact h
            rcases List.mem_cons.mp hbinl1 with h | hbt1
            · exact h.symm
            have hrab : strLeb a.1 b.1 = true :=
              (List.pairwise_cons.mp hs1).1 b hbt1
            have hrba : strLeb b.1 a.1 = true :=
              (List.pairwise_cons.mp hs2).1 a hat2
            have hkey : a.1 = b.1 := strLeb_antisymm hrab hrba
            have hn := (List.nodup_cons.mp hn1).1
            exfalso
            apply hn
            rw [hkey]
            exact List.mem_map_of_mem Prod.fst hbt1
          subst hab
          have hpt : t1.Perm t2 := (List.perm_cons a).mp hperm
          rw [ih (List.pairwise_cons.mp hs1).2 (List.pairwise_cons.mp hs2).2
            (List.nodup_cons.mp hn1).2 hpt]

theorem insertionSort_key_eq_of_perm {l1 l2 : List (String × String)}
    (hn : (l1.map Prod.fst).Nodup) (hperm : l1.Perm l2) :
    List.insertionSort (fun a b => strLeb a.1 b.1 = true) l1
      = List.insertionSort (fun a b => strLeb a.1 b.1 = true) l2 := by
  apply sorted_perm_nodup_keys_eq
  · exact List.sorted_insertionSort _ l1
  · exact List.sorted_insertionSort _ l2
  · have hp := (List.perm_insertionSort
      (fun a b : String × String => strLeb a.1 b.1 = true) l1).map Prod.fst
    exact hp.nodup_iff.mpr hn
  · exact ((List.perm_insertionSort _ l1).trans hperm).trans
      (List.perm_insertionSort _ l2).symm

theorem toJsonKvs_eq_map (kvs : List (String × PyVal)) :
    toJsonKvs kvs = kvs.map (fun p => (p.1, toJson p.2)) := by
  induction kvs with
  | nil => rfl
  | cons p kvs ih =>
      obtain ⟨k, v⟩ := p
      simp [toJsonKvs, ih]

theorem dumpJsonKvs_eq_map (sortKeys ensureAscii : Bool)
    (kvs : List (String × JVal)) :
    dumpJsonKvs sortKeys ensureAscii kvs
      = kvs.map (fun p => (p.1, dumpJson sortKeys ensureAscii p.2)) := by
  induction kvs with
  | nil => rfl
  | cons p kvs ih =>
      obtain ⟨k, v⟩ := p
      simp [dumpJsonKvs, ih]

theorem computeEtag_perm {d1 d2 : List (String × PyVal)}
    (hn : (akeys d1).Nodup) (hperm : d1.Perm d2) :
    computeEtagFromDict d1 = computeEtagFromDict d2 := by
  have hpairs : ∀ d : List (String × PyVal),
      dumpJsonKvs true true (toJsonKvs d)
        = d.map (fun p => (p.1, dumpJson true true (toJson p.2))) := by
    intro d
    rw [toJsonKvs_eq_map, dumpJsonKvs_eq_map, List.map_map]
    rfl
  have hkeys : ((d1.map
      (fun p => (p.1, dumpJson true true (toJson p.2)))).map Prod.fst).Nodup := by
    rw [List.map_map]
    exact hn
  have hsorteq := insertionSort_key_eq_of_perm hkeys
    (hperm.map (fun p => (p.1, dumpJson true true (toJson p.2))))
  have hdump : ∀ kvs, dumpJson true true (JVal.obj kvs)
      = "\x7b" ++
          String.intercalate ", "
            ((List.insertionSort (fun a b => strLeb a.1 b.1 = true)
                (dumpJsonKvs true true kvs)).map
              (fun p => jsonQuote true p.1 ++ ": " ++ p.2)) ++
        "\x7d" := fun kvs => rfl
  rw [computeEtagFromDict, computeEtagFromDict,
    show toJson (PyVal.dict d1) = JVal.obj (toJsonKvs d1) from rfl,
    show toJson (PyVal.dict d2) = JVal.obj (toJsonKvs d2) from rfl,
    hdump (toJsonKvs d1), hdump (toJsonKvs d2), hpairs d1, hpairs d2, hsorteq]

/-- C7: the fingerprint _compute_etag_from_dict is invariant under the
order of the payload's keys (json.dumps sort_keys=True serializes any two
permutation-equivalent string-keyed dicts identically), and after
_normalize_enhanced_payload a numeric-as-string page_count fingerprints
identically to the number itself. -/
theorem c7_fingerprint_deterministic :
    (∀ d1 d2 : List (String × PyVal), (akeys d1).Nodup → d1.Perm d2 →
        computeEtagFromDict d1 = computeEtagFromDict d2)
    ∧ computeEtagFromDict [("a", .int 1), ("b", .int 2)]
        = computeEtagFromDict [("b", .int 2), ("a", .int 1)]
    ∧ computeEtagFromDict
          (normalizeEnhancedPayload [("page_count", .str "5")])
        = computeEtagFromDict
          (normalizeEnhancedPayload [("page_count", .int 5)]) := by
  refine ⟨?_, ?_, ?_⟩
  · intro d1 d2 hn hperm
    exact computeEtag_perm hn hperm
  · exact computeEtag_perm (by decide)
      (List.Perm.swap ("b", PyVal.int 2) ("a", PyVal.int 1) [])
  · rfl

/-- Witness for C7 at a concrete input: the key-order part applied to the
spec's example payloads. -/
theorem c7_fingerprint_deterministic_witness :
    computeEtagFromDict [("a", PyVal.int 1), ("b", PyVal.int 2)]
      = computeEtagFromDict [("b", PyVal.int 2), ("a", PyVal.int 1)] := by
  exact c7_fingerprint_deterministic.1
    [("a", PyVal.int 1), ("b", PyVal.int 2)]
    [("b", PyVal.int 2), ("a", PyVal.int 1)]
    (by decide)
    (List.Perm.swap ("b", PyVal.int 2) ("a", PyVal.int 1) [])

/-! C2/C8/C9: invariants of the single-flight coalescer. -/

theorem getElem?_some_lt {α : Type} {l : List α} {i : Nat} {a : α}
    (h : l[i]? = some a) : i < l.length :=
  (List.getElem?_eq_some.mp h).1

theorem getElem?_set_cases {α : Type} {l : List α} {i j : Nat} {x y : α}
    (hi : i < l.length) (h : (l.set i x)[j]? = some y) :
    (i = j ∧ y = x) ∨ (i ≠ j ∧ l[j]? = some y) := by
  by_cases he : i = j
  · subst he
    rw [List.getElem?_set_eq hi] at h
    exact Or.inl ⟨rfl, (Option.some.inj h).symm⟩
  · rw [List.getElem?_set_ne he] at h
    exact Or.inr ⟨he, h⟩

theorem getElem?_append_single_cases {α : Type} {l : List α} {x : α}
    {j : Nat} {y : α} (h : (l ++ [x])[j]? = some y) :
    (j < l.length ∧ l[j]? = some y) ∨ (j = l.length ∧ y = x) := by
  by_cases hj : j < l.length
  · rw [List.getElem?_append_left hj] at h
    exact Or.inl ⟨hj, h⟩
  · have hlen : j < l.length + 1 := by
      have h2 := getElem?_some_lt h
      simpa using h2
    have hj2 : j = l.length := by omega
    subst hj2
    rw [List.getElem?_concat_length] at h
    exact Or.inr ⟨rfl, (Option.some.inj h).symm⟩

/-- The state invariant of the coalescer: the registry is a dict (one entry
per key) whose entries point at tasks for the right key; an unsettled task
for key k is always the registered entry for k (hence at most one
computation is ever in flight per key); every caller's phase is consistent
with the task it awaits; the initiator about to deregister holds its task's
settled outcome; finished callers hold the settled outcome of the task they
awaited; and the registered entry for a key is never older than the task of
any of that key's initiators. -/
structure CoInv (s : CoState) : Prop where
  regNodup : (s.registry.map Prod.fst).Nodup
  regValid : ∀ (k : String) (t : Nat), alookup s.registry k = some t →
    ∃ info : TaskInfo, s.tasks[t]? = some info ∧ info.key = k
  runningReg : ∀ (t : Nat) (info : TaskInfo), s.tasks[t]? = some info →
    info.settled = Option.none → alookup s.registry info.key = some t
  phaseTask : ∀ (c : Nat) (caller : Caller) (t : Nat),
    s.callers[c]? = some caller →
    (caller.phase = .joined t ∨ caller.phase = .owner t ∨
      (∃ r : Outcome, caller.phase = .deregistering t r)) →
    caller.awaited = some t ∧
      ∃ info : TaskInfo, s.tasks[t]? = some info ∧ info.key = caller.key
  deregSettled : ∀ (c : Nat) (caller : Caller) (t : Nat) (r : Outcome),
    s.callers[c]? = some caller →
    caller.phase = .deregistering t r →
    ∃ info : TaskInfo, s.tasks[t]? = some info ∧ info.settled = some r
  finishedOutcome : ∀ (c : Nat) (caller : Caller) (t : Nat) (r : Outcome),
    s.callers[c]? = some caller →
    caller.phase = .finished r → caller.awaited = some t →
    ∃ info : TaskInfo, s.tasks[t]? = some info ∧ info.settled = some r
  ownerLatest : ∀ (c : Nat) (caller : Caller) (t : Nat),
    s.callers[c]? = some caller →
    (caller.phase = .owner t ∨ (∃ r : Outcome, caller.phase = .deregistering t r)) →
    ∀ t2 : Nat, alookup s.registry caller.key = some t2 → t ≤ t2

theorem coInv_init (ks : List String) : CoInv (initCo ks) := by
  constructor
  · simp [initCo]
  · intro k t h
    simp [initCo, alookup] at h
  · intro t info h _
    simp [initCo] at h
  · intro c caller t hc hph
    have hmem : caller ∈ ks.map (fun k => (⟨k, .checking, Option.none⟩ : Caller)) := by
      have := List.getElem?_eq_some.mp hc
      obtain ⟨hlt, hget⟩ := this
      rw [← hget]
      exact List.getElem_mem _
    obtain ⟨k2, _, hk2⟩ := List.mem_map.mp hmem
    rcases hph with h1 | h1 | ⟨r, h1⟩ <;>
      (rw [← hk2] at h1; exact CallerPhase.noConfusion h1)
  · intro c caller t r hc hph
    have hmem : caller ∈ ks.map (fun k => (⟨k, .checking, Option.none⟩ : Caller)) := by
      have := List.getElem?_eq_some.mp hc
      obtain ⟨hlt, hget⟩ := this
      rw [← hget]
      exact List.getElem_mem _
    obtain ⟨k2, _, hk2⟩ := List.mem_map.mp hmem
    rw [← hk2] at hph
    exact CallerPhase.noConfusion hph
  · intro c caller t r hc hph
    have hmem : caller ∈ ks.map (fun k => (⟨k, .checking, Option.none⟩ : Caller)) := by
      have := List.getElem?_eq_some.mp hc
      obtain ⟨hlt, hget⟩ := this
      rw [← hget]
      exact List.getElem_mem _
    obtain ⟨k2, _, hk2⟩ := List.mem_map.mp hmem
    rw [← hk2] at hph
    exact CallerPhase.noConfusion hph
  · intro c caller t hc hph
    have hmem : caller ∈ ks.map (fun k => (⟨k, .checking, Option.none⟩ : Caller)) := by
      have := List.getElem?_eq_some.mp hc
      obtain ⟨hlt, hget⟩ := this
      rw [← hget]
      exact List.getElem_mem _
    obtain ⟨k2, _, hk2⟩ := List.mem_map.mp hmem
    rcases hph with h1 | ⟨r, h1⟩ <;>
      (rw [← hk2] at h1; exact CallerPhase.noConfusion h1)

theorem coInv_settle {s : CoState} {t : Nat} {o : Outcome} {info : TaskInfo}
    (h : CoInv s) (htask : s.tasks[t]? = some info)
    (hrun : info.settled = Option.none) :
    CoInv { s with tasks := s.tasks.set t { info with settled := some o } } := by
  have hlt : t < s.tasks.length := getElem?_some_lt htask
  constructor
  · exact h.regNodup
  · intro k t2 hreg
    obtain ⟨info2, htask2, hkey2⟩ := h.regValid k t2 hreg
    by_cases he : t = t2
    · subst he
      refine ⟨{ info with settled := some o }, List.getElem?_set_eq hlt, ?_⟩
      rw [htask] at htask2
      cases Option.some.inj htask2
      exact hkey2
    · exact ⟨info2, by rw [List.getElem?_set_ne he]; exact htask2, hkey2⟩
  · intro t2 info2 htask2 hrun2
    rcases getElem?_set_cases hlt htask2 with ⟨heq, hi⟩ | ⟨hne, hi⟩
    · rw [hi] at hrun2
      exact Option.noConfusion hrun2
    · exact h.runningReg t2 info2 hi hrun2
  · intro c caller t2 hc hph
    obtain ⟨ha, info2, htask2, hkey2⟩ := h.phaseTask c caller t2 hc hph
    refine ⟨ha, ?_⟩
    by_cases he : t = t2
    · subst he
      rw [htask] at htask2
      cases Option.some.inj htask2
      exact ⟨{ info with settled := some o }, List.getElem?_set_eq hlt, hkey2⟩
    · exact ⟨info2, by rw [List.getElem?_set_ne he]; exact htask2, hkey2⟩
  · intro c caller t2 r hc hph
    obtain ⟨info2, htask2, hset2⟩ := h.deregSettled c caller t2 r hc hph
    by_cases he : t = t2
    · subst he
      rw [htask] at htask2
      cases Option.some.inj htask2
      rw [hrun] at hset2
      exact Option.noConfusion hset2
    · exact ⟨info2, by rw [List.getElem?_set_ne he]; exact htask2, hset2⟩
  · intro c caller t2 r hc hph ha
    obtain ⟨info2, htask2, hset2⟩ := h.finishedOutcome c caller t2 r hc hph ha
    by_cases he : t = t2
    · subst he
      rw [htask] at htask2
      cases Option.some.inj htask2
      rw [hrun] at hset2
      exact Option.noConfusion hset2
    · exact ⟨info2, by rw [List.getElem?_set_ne he]; exact htask2, hset2⟩
  · exact h.ownerLatest

theorem coInv_resumeJoined {s : CoState} {c : Nat} {caller : Caller}
    {t : Nat} {info : TaskInfo} {o : Outcome}
    (h : CoInv s) (hcall : s.callers[c]? = some caller)
    (hph : caller.phase = .joined t) (htask : s.tasks[t]? = some info)
    (hset : info.settled = some o) :
    CoInv { s with
      callers := s.callers.set c { caller with phase := .finished o } } := by
  have hclt : c < s.callers.length := getElem?_some_lt hcall
  have hawait := (h.phaseTask c caller t hcall (Or.inl hph)).1
  constructor
  · exact h.regNodup
  · exact h.regValid
  · exact h.runningReg
  · intro c' caller' t' hc' hph'
    rcases getElem?_set_cases hclt hc' with ⟨_, hcaller⟩ | ⟨_, hc2⟩
    · subst hcaller
      rcases hph' with h1 | h1 | ⟨r2, h1⟩ <;> exact CallerPhase.noConfusion h1
    · exact h.phaseTask c' caller' t' hc2 hph'
  · intro c' caller' t' r' hc' hph'
    rcases getElem?_set_cases hclt hc' with ⟨_, hcaller⟩ | ⟨_, hc2⟩
    · subst hcaller
      exact CallerPhase.noConfusion hph'
    · exact h.deregSettled c' caller' t' r' hc2 hph'
  · intro c' caller' t' r' hc' hph' ha'
    rcases getElem?_set_cases hclt hc' with ⟨_, hcaller⟩ | ⟨_, hc2⟩
    · subst hcaller
      have hor : o = r' := by injection hph'
      have ht' : t = t' := by
        rw [show ({ caller with phase := CallerPhase.finished o } : Caller).awaited
              = caller.awaited from rfl, hawait] at ha'
        exact Option.some.inj ha'
      refine ⟨info, by rw [← ht']; exact htask, by rw [← hor]; exact hset⟩
    · exact h.finishedOutcome c' caller' t' r' hc2 hph' ha'
  · intro c' caller' t' hc' hph' t2 hreg2
    rcases getElem?_set_cases hclt hc' with ⟨_, hcaller⟩ | ⟨_, hc2⟩
    · subst hcaller
      rcases hph' with h1 | ⟨r2, h1⟩ <;> exact CallerPhase.noConfusion h1
    · exact h.ownerLatest c' caller' t' hc2 hph' t2 hreg2

theorem coInv_resumeOwner {s : CoState} {c : Nat} {caller : Caller}
    {t : Nat} {info : TaskInfo} {o : Outcome}
    (h : CoInv s) (hcall : s.callers[c]? = some caller)
    (hph : caller.phase = .owner t) (htask : s.tasks[t]? = some info)
    (hset : info.settled = some o) :
    CoInv { s with
      callers := s.callers.set c
        { caller with phase := .deregistering t o } } := by
  have hclt : c < s.callers.length := getElem?_some_lt hcall
  have hpt := h.phaseTask c caller t hcall (Or.inr (Or.inl hph))
  constructor
  · exact h.regNodup
  · exact h.regValid
  · exact h.runningReg
  · intro c' caller' t' hc' hph'
    rcases getElem?_set_cases hclt hc' with ⟨_, hcaller⟩ | ⟨_, hc2⟩
    · subst hcaller
      have ht' : t = t' := by
        rcases hph' with h1 | h1 | ⟨r2, h1⟩
        · exact CallerPhase.noConfusion
            (show CallerPhase.deregistering t o = CallerPhase.joined t' from h1)
        · exact CallerPhase.noConfusion
            (show CallerPhase.deregistering t o = CallerPhase.owner t' from h1)
        · have h2 : CallerPhase.deregistering t o
              = CallerPhase.deregistering t' r2 := h1
          injection h2 with h3 h4
      subst ht'
      exact ⟨hpt.1, hpt.2⟩
    · exact h.phaseTask c' caller' t' hc2 hph'
  · intro c' caller' t' r' hc' hph'
    rcases getElem?_set_cases hclt hc' with ⟨_, hcaller⟩ | ⟨_, hc2⟩
    · subst hcaller
      have h2 : CallerPhase.deregistering t o
          = CallerPhase.deregistering t' r' := hph'
      injection h2 with h3 h4
      refine ⟨info, by rw [← h3]; exact htask, by rw [← h4]; exact hset⟩
    · exact h.deregSettled c' caller' t' r' hc2 hph'
  · intro c' caller' t' r' hc' hph' ha'
    rcases getElem?_set_cases hclt hc' with ⟨_, hcaller⟩ | ⟨_, hc2⟩
    · subst hcaller
      exact CallerPhase.noConfusion
        (show CallerPhase.deregistering t o = CallerPhase.finished r' from hph')
    · exact h.finishedOutcome c' caller' t' r' hc2 hph' ha'
  · intro c' caller' t' hc' hph' t2 hreg2
    rcases getElem?_set_cases hclt hc' with ⟨_, hcaller⟩ | ⟨_, hc2⟩
    · subst hcaller
      have ht' : t = t' := by
        rcases hph' with h1 | ⟨r2, h1⟩
        · exact CallerPhase.noConfusion
            (show CallerPhase.deregistering t o = CallerPhase.owner t' from h1)
        · have h2 : CallerPhase.deregistering t o
              = CallerPhase.deregistering t' r2 := h1
          injection h2 with h3 h4
      subst ht'
      exact h.ownerLatest c caller t hcall (Or.inl hph) t2 hreg2
    · exact h.ownerLatest c' caller' t' hc2 hph' t2 hreg2

theorem coInv_join {s : CoState} {c : Nat} {caller : Caller} {t : Nat}
    {info : TaskInfo}
    (h : CoInv s) (hcall : s.callers[c]? = some caller)
    (hreg : alookup s.registry caller.key = some t)
    (htask : s.tasks[t]? = some info) :
    CoInv { s with
      callers := s.callers.set c
        { caller with phase := .joined t, awaited := some t } } := by
  have hclt : c < s.callers.length := getElem?_some_lt hcall
  obtain ⟨infov, htaskv, hkeyv⟩ := h.regValid caller.key t hreg
  constructor
  · exact h.regNodup
  · exact h.regValid
  · exact h.runningReg
  · intro c' caller' t' hc' hph'
    rcases getElem?_set_cases hclt hc' with ⟨_, hcaller⟩ | ⟨_, hc2⟩
    · subst hcaller
      have ht' : t = t' := by
        rcases hph' with h1 | h1 | ⟨r2, h1⟩
        · injection h1 with h2
        · exact CallerPhase.noConfusion h1
        · exact CallerPhase.noConfusion h1
      subst ht'
      exact ⟨rfl, infov, htaskv, hkeyv⟩
    · exact h.phaseTask c' caller' t' hc2 hph'
  · intro c' caller' t' r' hc' hph'
    rcases getElem?_set_cases hclt hc' with ⟨_, hcaller⟩ | ⟨_, hc2⟩
    · subst hcaller
      exact CallerPhase.noConfusion hph'
    · exact h.deregSettled c' caller' t' r' hc2 hph'
  · intro c' caller' t' r' hc' hph' ha'
    rcases getElem?_set_cases hclt hc' with ⟨_, hcaller⟩ | ⟨_, hc2⟩
    · subst hcaller
      exact CallerPhase.noConfusion hph'
    · exact h.finishedOutcome c' caller' t' r' hc2 hph' ha'
  · intro c' caller' t' hc' hph' t2 hreg2
    rcases getElem?_set_cases hclt hc' with ⟨_, hcaller⟩ | ⟨_, hc2⟩
    · subst hcaller
      rcases hph' with h1 | ⟨r2, h1⟩ <;> exact CallerPhase.noConfusion h1
    · exact h.ownerLatest c' caller' t' hc2 hph' t2 hreg2

theorem coInv_createTask {s : CoState} {c : Nat} {caller : Caller}
    (h : CoInv s) (hcall : s.callers[c]? = some caller)
    (hcond : alookup s.registry caller.key = Option.none ∨
      ∃ (t0 : Nat) (info0 : TaskInfo),
        alookup s.registry caller.key = some t0 ∧
        s.tasks[t0]? = some info0 ∧ info0.settled ≠ Option.none) :
    CoInv (createTask s c caller) := by
  have hclt : c < s.callers.length := getElem?_some_lt hcall
  constructor
  · exact nodup_akeys_aupdate _ h.regNodup
  · intro k2 t2 hreg2
    by_cases hk : k2 = caller.key
    · subst hk
      rw [createTask] at hreg2
      simp only at hreg2
      rw [alookup_aupdate_self] at hreg2
      cases Option.some.inj hreg2
      exact ⟨⟨caller.key, Option.none⟩, List.getElem?_concat_length _ _, rfl⟩
    · rw [createTask] at hreg2
      simp only at hreg2
      rw [alookup_aupdate_ne _ hk] at hreg2
      obtain ⟨info2, htask2, hkey2⟩ := h.regValid k2 t2 hreg2
      exact ⟨info2,
        by rw [createTask]
           simp only
           rw [List.getElem?_append_left (getElem?_some_lt htask2)]
           exact htask2,
        hkey2⟩
  · intro t2 info2 htask2 hrun2
    rw [createTask] at htask2
    simp only at htask2
    rcases getElem?_append_single_cases htask2 with ⟨hlt2, htask3⟩ | ⟨heq, hinfo⟩
    · have hreg2 := h.runningReg t2 info2 htask3 hrun2
      rw [createTask]
      simp only
      by_cases hk : info2.key = caller.key
      · rw [hk] at hreg2
        rcases hcond with hnone | ⟨t0, info0, hr0, ht0, hs0⟩
        · rw [hnone] at hreg2
          exact Option.noConfusion hreg2
        · rw [hr0] at hreg2
          cases Option.some.inj hreg2
          rw [ht0] at htask3
          cases Option.some.inj htask3
          exact absurd hrun2 hs0
      · rw [alookup_aupdate_ne _ hk]
        exact hreg2
    · rw [createTask]
      simp only
      rw [hinfo]
      rw [show (⟨caller.key, Option.none⟩ : TaskInfo).key = caller.key from rfl]
      rw [alookup_aupdate_self, heq]
  · intro c' caller' t' hc' hph'
    rw [createTask] at hc' ⊢
    simp only at hc' ⊢
    rcases getElem?_set_cases hclt hc' with ⟨_, hcaller⟩ | ⟨_, hc2⟩
    · subst hcaller
      have ht' : s.tasks.length = t' := by
        rcases hph' with h1 | h1 | ⟨r2, h1⟩
        · exact CallerPhase.noConfusion (show CallerPhase.owner s.tasks.length
            = CallerPhase.joined t' from h1)
        · have h2 : CallerPhase.owner s.tasks.length
              = CallerPhase.owner t' := h1
          injection h2
        · exact CallerPhase.noConfusion (show CallerPhase.owner s.tasks.length
            = CallerPhase.deregistering t' r2 from h1)
      subst ht'
      exact ⟨rfl, ⟨caller.key, Option.none⟩,
        List.getElem?_concat_length _ _, rfl⟩
    · obtain ⟨ha, info2, htask2, hkey2⟩ := h.phaseTask c' caller' t' hc2 hph'
      exact ⟨ha, info2,
        by rw [List.getElem?_append_left (getElem?_some_lt htask2)]
           exact htask2,
        hkey2⟩
  · intro c' caller' t' r' hc' hph'
    rw [createTask] at hc' ⊢
    simp only at hc' ⊢
    rcases getElem?_set_cases hclt hc' with ⟨_, hcaller⟩ | ⟨_, hc2⟩
    · subst hcaller
      exact CallerPhase.noConfusion (show CallerPhase.owner s.tasks.length
        = CallerPhase.deregistering t' r' from hph')
    · obtain ⟨info2, htask2, hset2⟩ := h.deregSettled c' caller' t' r' hc2 hph'
      exact ⟨info2,
        by rw [List.getElem?_append_left (getElem?_some_lt htask2)]
           exact htask2,
        hset2⟩
  · intro c' caller' t' r' hc' hph' ha'
    rw [createTask] at hc' ⊢
    simp only at hc' ⊢
    rcases getElem?_set_cases hclt hc' with ⟨_, hcaller⟩ | ⟨_, hc2⟩
    · subst hcaller
      exact CallerPhase.noConfusion (show CallerPhase.owner s.tasks.length
        = CallerPhase.finished r' from hph')
    · obtain ⟨info2, htask2, hset2⟩ :=
        h.finishedOutcome c' caller' t' r' hc2 hph' ha'
      exact ⟨info2,
        by rw [List.getElem?_append_left (getElem?_some_lt htask2)]
           exact htask2,
        hset2⟩
  · intro c' caller' t' hc' hph' t2 hreg2
    rw [createTask] at hc' hreg2
    simp only at hc' hreg2
    rcases getElem?_set_cases hclt hc' with ⟨_, hcaller⟩ | ⟨_, hc2⟩
    · subst hcaller
      have ht' : s.tasks.length = t' := by
        rcases hph' with h1 | ⟨r2, h1⟩
        · have h2 : CallerPhase.owner s.tasks.length
              = CallerPhase.owner t' := h1
          injection h2
        · exact CallerPhase.noConfusion (show CallerPhase.owner s.tasks.length
            = CallerPhase.deregistering t' r2 from h1)
      subst ht'
      have hreg3 : alookup (aupdate s.registry caller.key s.tasks.length)
          caller.key = some t2 := hreg2
      rw [alookup_aupdate_self] at hreg3
      cases Option.some.inj hreg3
      exact Nat.le_refl _
    · by_cases hk : caller'.key = caller.key
      · rw [hk, alookup_aupdate_self] at hreg2
        cases Option.some.inj hreg2
        have hpt := h.phaseTask c' caller' t' hc2 (by
          rcases hph' with h1 | h1
          · exact Or.inr (Or.inl h1)
          · exact Or.inr (Or.inr h1))
        obtain ⟨_, info2, htask2, _⟩ := hpt
        exact Nat.le_of_lt (getElem?_some_lt htask2)
      · rw [alookup_aupdate_ne _ hk] at hreg2
        exact h.ownerLatest c' caller' t' hc2 hph' t2 hreg2

theorem coInv_dereg {s : CoState} {c : Nat} {caller : Caller} {t : Nat}
    {r : Outcome}
    (h : CoInv s) (hcall : s.callers[c]? = some caller)
    (hph : caller.phase = .deregistering t r) :
    CoInv { s with
      registry := if alookup s.registry caller.key = some t
        then aerase s.registry caller.key else s.registry,
      callers := s.callers.set c { caller with phase := .finished r } } := by
  have hclt : c < s.callers.length := getElem?_some_lt hcall
  have hawait := (h.phaseTask c caller t hcall (Or.inr (Or.inr ⟨r, hph⟩))).1
  obtain ⟨infod, htaskd, hsetd⟩ := h.deregSettled c caller t r hcall hph
  have hreg' : ∀ (k2 : String) (t2 : Nat),
      alookup (if alookup s.registry caller.key = some t
        then aerase s.registry caller.key else s.registry) k2 = some t2 →
      alookup s.registry k2 = some t2 := by
    intro k2 t2 hl
    by_cases hrem : alookup s.registry caller.key = some t
    · rw [if_pos hrem] at hl
      by_cases hk : k2 = caller.key
      · subst hk
        rw [alookup_aerase_self h.regNodup] at hl
        exact Option.noConfusion hl
      · rwa [alookup_aerase_ne hk] at hl
    · rwa [if_neg hrem] at hl
  constructor
  · by_cases hrem : alookup s.registry caller.key = some t
    · rw [if_pos hrem]
      exact nodup_akeys_aerase _ h.regNodup
    · rw [if_neg hrem]
      exact h.regNodup
  · intro k2 t2 hl
    exact h.regValid k2 t2 (hreg' k2 t2 hl)
  · intro t2 info2 htask2 hrun2
    have hr2 := h.runningReg t2 info2 htask2 hrun2
    by_cases hrem : alookup s.registry caller.key = some t
    · rw [if_pos hrem]
      by_cases hk : info2.key = caller.key
      · rw [hk, hrem] at hr2
        cases Option.some.inj hr2
        rw [htaskd] at htask2
        cases Option.some.inj htask2
        rw [hrun2] at hsetd
        exact Option.noConfusion hsetd
      · rw [alookup_aerase_ne hk]
        exact hr2
    · rw [if_neg hrem]
      exact hr2
  · intro c' caller' t' hc' hph'
    rcases getElem?_set_cases hclt hc' with ⟨_, hcaller⟩ | ⟨_, hc2⟩
    · subst hcaller
      rcases hph' with h1 | h1 | ⟨r2, h1⟩
      · exact CallerPhase.noConfusion
          (show CallerPhase.finished r = CallerPhase.joined t' from h1)
      · exact CallerPhase.noConfusion
          (show CallerPhase.finished r = CallerPhase.owner t' from h1)
      · exact CallerPhase.noConfusion
          (show CallerPhase.finished r = CallerPhase.deregistering t' r2 from h1)
    · exact h.phaseTask c' caller' t' hc2 hph'
  · intro c' caller' t' r' hc' hph'
    rcases getElem?_set_cases hclt hc' with ⟨_, hcaller⟩ | ⟨_, hc2⟩
    · subst hcaller
      exact CallerPhase.noConfusion
        (show CallerPhase.finished r = CallerPhase.deregistering t' r' from hph')
    · exact h.deregSettled c' caller' t' r' hc2 hph'
  · intro c' caller' t' r' hc' hph' ha'
    rcases getElem?_set_cases hclt hc' with ⟨_, hcaller⟩ | ⟨_, hc2⟩
    · subst hcaller
      have hrr : r = r' := by
        have h2 : CallerPhase.finished r = CallerPhase.finished r' := hph'
        injection h2
      have htt : t = t' := by
        rw [show ({ caller with phase := CallerPhase.finished r } : Caller).awaited
              = caller.awaited from rfl, hawait] at ha'
        exact Option.some.inj ha'
      refine ⟨infod, by rw [← htt]; exact htaskd, by rw [← hrr]; exact hsetd⟩
    · exact h.finishedOutcome c' caller' t' r' hc2 hph' ha'
  · intro c' caller' t' hc' hph' t2 hl
    rcases getElem?_set_cases hclt hc' with ⟨_, hcaller⟩ | ⟨_, hc2⟩
    · subst hcaller
      rcases hph' with h1 | ⟨r2, h1⟩
      · exact CallerPhase.noConfusion
          (show CallerPhase.finished r = CallerPhase.owner t' from h1)
      · exact CallerPhase.noConfusion
          (show CallerPhase.finished r = CallerPhase.deregistering t' r2 from h1)
    · exact h.ownerLatest c' caller' t' hc2 hph' t2 (hreg' _ _ hl)

/-- Every enabled step of the coalescer preserves the invariant. -/
theorem coInv_step {s : CoState} {a : Action} {s2 : CoState}
    (h : CoInv s) (hst : step s a = some s2) : CoInv s2 := by
  cases a with
  | check c =>
      simp only [step] at hst
      split at hst
      · rename_i caller hcall
        split at hst
        · split at hst
          · rename_i t hreg
            split at hst
            · rename_i info htask
              split at hst
              · cases Option.some.inj hst
                exact coInv_join h hcall hreg htask
              · rename_i hsettled
                cases Option.some.inj hst
                exact coInv_createTask h hcall
                  (Or.inr ⟨t, info, hreg, htask, hsettled⟩)
            · exact Option.noConfusion hst
          · rename_i hreg
            cases Option.some.inj hst
            exact coInv_createTask h hcall (Or.inl hreg)
        · exact Option.noConfusion hst
      · exact Option.noConfusion hst
  | settle t o =>
      simp only [step] at hst
      split at hst
      · rename_i info htask
        split at hst
        · rename_i hrun
          cases Option.some.inj hst
          exact coInv_settle h htask hrun
        · exact Option.noConfusion hst
      · exact Option.noConfusion hst
  | resumeJoined c =>
      simp only [step] at hst
      split at hst
      · rename_i caller hcall
        split at hst
        · rename_i t hph
          split at hst
          · rename_i info htask
            split at hst
            · rename_i o hset
              cases Option.some.inj hst
              exact coInv_resumeJoined h hcall hph htask hset
            · exact Option.noConfusion hst
          · exact Option.noConfusion hst
        · exact Option.noConfusion hst
      · exact Option.noConfusion hst
  | resumeOwner c =>
      simp only [step] at hst
      split at hst
      · rename_i caller hcall
        split at hst
        · rename_i t hph
          split at hst
          · rename_i info htask
            split at hst
            · rename_i o hset
              cases Option.some.inj hst
              exact coInv_resumeOwner h hcall hph htask hset
            · exact Option.noConfusion hst
          · exact Option.noConfusion hst
        · exact Option.noConfusion hst
      · exact Option.noConfusion hst
  | dereg c =>
      simp only [step] at hst
      split at hst
      · rename_i caller hcall
        split at hst
        · rename_i t r hph
          cases Option.some.inj hst
          exact coInv_dereg h hcall hph
        · exact Option.noConfusion hst
      · exact Option.noConfusion hst

/-- Every reachable coalescer state satisfies the invariant. -/
theorem coInv_reachable {s : CoState} (h : CoReachable s) : CoInv s := by
  induction h with
  | init ks => exact coInv_init ks
  | next hr hst ih => exact coInv_step ih hst

/-- States produced by running a schedule from an initial state are
reachable. -/
theorem reachable_of_run {ks : List String} {acts : List Action} {s2 : CoState}
    (h : run (initCo ks) acts = some s2) : CoReachable s2 := by
  suffices hgen : ∀ (s : CoState), CoReachable s →
      ∀ (acts2 : List Action), run s acts2 = some s2 → CoReachable s2 by
    exact hgen (initCo ks) (CoReachable.init ks) acts h
  intro s hs acts2
  induction acts2 generalizing s with
  | nil =>
      intro hrun
      simp only [run] at hrun
      cases Option.some.inj hrun
      exact hs
  | cons a acts3 ih =>
      intro hrun
      simp only [run] at hrun
      cases hstep : step s a with
      | none => rw [hstep] at hrun; exact Option.noConfusion hrun
      | some s3 =>
          rw [hstep] at hrun
          exact ih s3 (CoReachable.next hs hstep) hrun

/-! C2: single-flight coalescing of overlapping callers. -/

/-- Claim C2 as stated: whenever N concurrent callers of the coalescer for
one key overlap in time, the compute callback runs exactly once (at most
one task is ever spawned) and all callers receive an identical result. -/
def claimC2 : Prop :=
  ∀ (n : Nat) (k : String) (acts : List Action) (s : CoState),
    run (initCo (List.replicate n k)) acts = some s →
    allOverlap acts n →
    s.tasks.length ≤ 1
    ∧ (∀ (c1 c2 : Nat) (e1 e2 : Caller) (r1 r2 : Outcome),
        s.callers[c1]? = some e1 → s.callers[c2]? = some e2 →
        e1.phase = .finished r1 → e2.phase = .finished r2 → r1 = r2)

/-- A legal asyncio schedule of two overlapping callers of
_coalesced_generate_ai_summary for the same isbn: caller 0 registers task 0;
task 0 completes; caller 1 runs its check before caller 0's continuation is
scheduled, finds the registered task done, and spawns task 1; caller 0 then
resumes, and its finally-block leaves the newer entry alone.  Two compute
invocations, two different results — while caller 0's call is still in
progress when caller 1's begins. -/
def c2Trace : List Action :=
  [.check 0, .settle 0 (.ok 1), .check 1, .resumeOwner 0, .dereg 0,
   .settle 1 (.ok 2), .resumeOwner 1, .dereg 1]

/-- C2 counterexample: on the schedule c2Trace the two callers overlap in
time, yet coro_factory runs twice and the callers obtain different
results — the claim's "overlap in time" premise is not enough; only
callers whose check finds the computation still unsettled share it. -/
theorem c2_counterexample : ¬ claimC2 := by
  intro h
  have hov : allOverlap c2Trace 2 := by
    intro c1 h1 c2 h2
    interval_cases c1 <;> interval_cases c2
    · exact ⟨0, 4, by decide, by decide, by omega⟩
    · exact ⟨0, 7, by decide, by decide, by omega⟩
    · exact ⟨2, 4, by decide, by decide, by omega⟩
    · exact ⟨2, 7, by decide, by decide, by omega⟩
  have h2 := h 2 "x" c2Trace
    ((run (initCo (List.replicate 2 "x")) c2Trace).getD (initCo [])) rfl hov
  exact absurd h2.1 (by decide)

/-- C2 amended: in every reachable coalescer state at most one unsettled
task exists per key — so every caller whose locked check runs while a
computation for its key is in flight awaits that same task and compute is
not invoked again — and any two callers that awaited the same task finish
with identical outcomes.  A caller whose check runs after the in-flight
computation settled (possible even for calls overlapping in time, per the
counterexample) starts a fresh invocation. -/
theorem c2_single_flight :
    ∀ s : CoState, CoReachable s →
      (∀ (t1 t2 : Nat) (i1 i2 : TaskInfo),
        s.tasks[t1]? = some i1 → s.tasks[t2]? = some i2 →
        i1.settled = Option.none → i2.settled = Option.none →
        i1.key = i2.key → t1 = t2)
      ∧ (∀ (c1 c2 : Nat) (e1 e2 : Caller) (t : Nat) (r1 r2 : Outcome),
          s.callers[c1]? = some e1 → s.callers[c2]? = some e2 →
          e1.phase = .finished r1 → e2.phase = .finished r2 →
          e1.awaited = some t → e2.awaited = some t → r1 = r2) := by
  intro s hs
  have h := coInv_reachable hs
  constructor
  · intro t1 t2 i1 i2 h1 h2 hr1 hr2 hk
    have hg1 := h.runningReg t1 i1 h1 hr1
    have hg2 := h.runningReg t2 i2 h2 hr2
    rw [hk] at hg1
    rw [hg1] at hg2
    exact Option.some.inj hg2
  · intro c1 c2 e1 e2 t r1 r2 hc1 hc2 hp1 hp2 ha1 ha2
    obtain ⟨i1, ht1, hset1⟩ := h.finishedOutcome c1 e1 t r1 hc1 hp1 ha1
    obtain ⟨i2, ht2, hset2⟩ := h.finishedOutcome c2 e2 t r2 hc2 hp2 ha2
    rw [ht1] at ht2
    cases Option.some.inj ht2
    rw [hset1] at hset2
    exact Option.some.inj hset2

/-- A schedule where a second caller joins the in-flight task: both callers
finish with the task's single outcome. -/
def c2JoinTrace : List Action :=
  [.check 0, .check 1, .settle 0 (.ok 5), .resumeJoined 1,
   .resumeOwner 0, .dereg 0]

/-- The state at the end of c2JoinTrace. -/
def c2JoinEnd : CoState :=
  (run (initCo (List.replicate 2 "x")) c2JoinTrace).getD (initCo [])

/-- Witness for the amended C2 at a concrete input: both callers of
c2JoinTrace awaited task 0 and finished with its one outcome. -/
theorem c2_single_flight_witness : Outcome.ok 5 = Outcome.ok 5 := by
  exact (c2_single_flight c2JoinEnd (reachable_of_run
      (show run (initCo (List.replicate 2 "x")) c2JoinTrace = some c2JoinEnd
        from rfl))).2
    0 1 ⟨"x", .finished (.ok 5), some 0⟩ ⟨"x", .finished (.ok 5), some 0⟩
    0 (.ok 5) (.ok 5) rfl rfl rfl rfl rfl rfl

/-! C8: the in-flight registry. -/

/-- C8: in every reachable state the registry is a dict holding at most one
entry per key, and the finally-block deregistration by a caller that
registered task t removes the entry exactly when it is still t; if a newer
entry t2 has replaced it (necessarily newer: t < t2), deregistration leaves
it untouched. -/
theorem c8_registry_single_entry :
    ∀ s : CoState, CoReachable s →
      ((s.registry.map Prod.fst).Nodup)
      ∧ (∀ (c : Nat) (caller : Caller) (t : Nat) (r : Outcome) (s2 : CoState),
          s.callers[c]? = some caller → caller.phase = .deregistering t r →
          step s (.dereg c) = some s2 →
          (alookup s.registry caller.key = some t →
            alookup s2.registry caller.key = Option.none)
          ∧ (∀ t2 : Nat, alookup s.registry caller.key = some t2 → t2 ≠ t →
              alookup s2.registry caller.key = some t2 ∧ t < t2)) := by
  intro s hs
  have h := coInv_reachable hs
  refine ⟨h.regNodup, ?_⟩
  intro c caller t r s2 hcall hph hstep
  have hs2 : s2 = { s with
      registry := if alookup s.registry caller.key = some t
        then aerase s.registry caller.key else s.registry,
      callers := s.callers.set c { caller with phase := .finished r } } := by
    simp only [step] at hstep
    split at hstep
    · rename_i caller2 hcall2
      split at hstep
      · rename_i t3 r3 hph2
        rw [hcall] at hcall2
        cases Option.some.inj hcall2
        rw [hph] at hph2
        injection hph2 with h1 h2
        subst h1
        subst h2
        exact (Option.some.inj hstep).symm
      · exact Option.noConfusion hstep
    · exact Option.noConfusion hstep
  subst hs2
  constructor
  · intro hreg
    simp only [if_pos hreg]
    exact alookup_aerase_self h.regNodup
  · intro t2 hreg ht2ne
    have hcond : ¬ alookup s.registry caller.key = some t := by
      rw [hreg]
      intro hx
      exact ht2ne (Option.some.inj hx)
    have hle := h.ownerLatest c caller t hcall (Or.inr ⟨r, hph⟩) t2 hreg
    simp only [if_neg hcond]
    exact ⟨hreg, by omega⟩

/-- A schedule leaving caller 0 about to run its finally block. -/
def c8Trace : List Action :=
  [.check 0, .settle 0 (.ok 1), .resumeOwner 0]

/-- The state at the end of c8Trace. -/
def c8End : CoState :=
  (run (initCo (List.replicate 1 "x")) c8Trace).getD (initCo [])

/-- Witness for C8 at a concrete input: deregistration removes the entry
that is still the caller's own task. -/
theorem c8_registry_single_entry_witness :
    alookup ((step c8End (.dereg 0)).getD (initCo [])).registry "x"
      = Option.none := by
  exact ((c8_registry_single_entry c8End (reachable_of_run
      (show run (initCo (List.replicate 1 "x")) c8Trace = some c8End
        from rfl))).2
    0 ⟨"x", .deregistering 0 (.ok 1), some 0⟩ 0 (.ok 1)
    ((step c8End (.dereg 0)).getD (initCo []))
    rfl rfl rfl).1 rfl

/-! C9: error propagation without poisoning. -/

/-- C9: in every reachable state, a caller that finished having awaited a
task whose computation failed received exactly that error; and a caller
checking a key whose registry entry is absent or settled (in particular
after a failed computation settled and deregistered) spawns a fresh task —
compute is re-invoked, the key is not poisoned. -/
theorem c9_error_not_poisoned :
    ∀ s : CoState, CoReachable s →
      (∀ (c : Nat) (e : Caller) (t : Nat) (r : Outcome) (eo : Nat)
         (info : TaskInfo),
        s.callers[c]? = some e → e.phase = .finished r → e.awaited = some t →
        s.tasks[t]? = some info → info.settled = some (.err eo) →
        r = .err eo)
      ∧ (∀ (c : Nat) (e : Caller), s.callers[c]? = some e →
          e.phase = .checking →
          (alookup s.registry e.key = Option.none ∨
            (∃ (t : Nat) (info : TaskInfo), alookup s.registry e.key = some t ∧
              s.tasks[t]? = some info ∧ info.settled.isSome)) →
          ∃ s2 : CoState, step s (.check c) = some s2
            ∧ s2.tasks.length = s.tasks.length + 1
            ∧ alookup s2.registry e.key = some s.tasks.length
            ∧ s2.tasks[s.tasks.length]? = some ⟨e.key, Option.none⟩) := by
  intro s hs
  have h := coInv_reachable hs
  constructor
  · intro c e t r eo info hc hp ha ht hset
    obtain ⟨info2, ht2, hset2⟩ := h.finishedOutcome c e t r hc hp ha
    rw [ht] at ht2
    cases Option.some.inj ht2
    rw [hset] at hset2
    exact (Option.some.inj hset2).symm
  · intro c e hc hp hcond
    refine ⟨createTask s c e, ?_, by simp [createTask], ?_, ?_⟩
    · rcases hcond with hnone | ⟨t, info, hl, ht, hsome⟩
      · simp [step, hc, hp, hnone]
      · have hns : ¬ info.settled = Option.none := by
          intro hx
          rw [hx] at hsome
          exact Bool.noConfusion hsome
        simp [step, hc, hp, hl, ht, hns]
    · rw [createTask]
      exact alookup_aupdate_self _ _ _
    · rw [createTask]
      exact List.getElem?_concat_length _ _

/-- A schedule whose computation fails: caller 0's task settles with an
error, is consumed and deregistered, and caller 1 has not checked yet. -/
def c9Trace : List Action :=
  [.check 0, .settle 0 (.err 3), .resumeOwner 0, .dereg 0]

/-- The state at the end of c9Trace. -/
def c9End : CoState :=
  (run (initCo (List.replicate 2 "x")) c9Trace).getD (initCo [])

/-- Witness for C9 at a concrete input: caller 0 received the error, and
caller 1's subsequent check spawns a fresh computation. -/
theorem c9_error_not_poisoned_witness :
    (Outcome.err 3 = Outcome.err 3)
    ∧ ∃ s2 : CoState, step c9End (.check 1) = some s2
        ∧ s2.tasks.length = c9End.tasks.length + 1
        ∧ alookup s2.registry "x" = some c9End.tasks.length
        ∧ s2.tasks[c9End.tasks.length]? = some ⟨"x", Option.none⟩ := by
  have hre := reachable_of_run
    (show run (initCo (List.replicate 2 "x")) c9Trace = some c9End from rfl)
  constructor
  · exact (c9_error_not_poisoned c9End hre).1 0
      ⟨"x", .finished (.err 3), some 0⟩ 0 (.err 3) 3
      ⟨"x", some (.err 3)⟩ rfl rfl rfl rfl rfl
  · exact (c9_error_not_poisoned c9End hre).2 1
      ⟨"x", .checking, Option.none⟩ rfl rfl (Or.inl rfl)

end LibApp
